import Mathlib

/-!
Verification of the Pixiecore netboot orchestrator (pixiecore / dhcp6 / pool
packages) against its natural-language specification.

The Go sources are embedded shallowly: bytes are `Nat` values (well-formedness
`< 256` is carried as hypotheses where it matters), byte strings are
`List Nat`, Go maps keyed by integers are association lists in first-insertion
order (Go map iteration order is unspecified; the embedding fixes the
first-insertion order as the canonical iteration order), fallible Go functions
return `Option`/`Except`, and Go runtime panics (out-of-range slicing) are a
distinguished error value.
-/

set_option maxHeartbeats 1000000

/-- Bytes are naturals below 256. -/
def WFBytes (bs : List Nat) : Prop := ∀ b ∈ bs, b < 256

instance : DecidablePred WFBytes := fun bs => List.decidableBAll _ bs

/-- Big-endian 16-bit read (binary.BigEndian.Uint16). -/
def uint16BE (b1 b2 : Nat) : Nat := b1 * 256 + b2

/-- Big-endian 16-bit write (binary.BigEndian.PutUint16); the argument is
reduced modulo 2^16 as the Go uint16 would be. -/
def putUint16 (n : Nat) : List Nat := [n / 256 % 256, n % 256]

/-- Big-endian 32-bit write (binary.BigEndian.PutUint32). -/
def putUint32 (n : Nat) : List Nat :=
  [n / 16777216 % 256, n / 65536 % 256, n / 256 % 256, n % 256]

theorem putUint16_length (n : Nat) : (putUint16 n).length = 2 := rfl

theorem putUint32_length (n : Nat) : (putUint32 n).length = 4 := rfl

theorem putUint16_wf (n : Nat) : WFBytes (putUint16 n) := by
  intro b hb
  simp only [putUint16, List.mem_cons, List.not_mem_nil, or_false] at hb
  rcases hb with h | h <;> subst h <;> omega

theorem putUint32_wf (n : Nat) : WFBytes (putUint32 n) := by
  intro b hb
  simp only [putUint32, List.mem_cons, List.not_mem_nil, or_false] at hb
  rcases hb with h | h | h | h <;> subst h <;> omega

theorem uint16BE_putUint16 (n : Nat) (h : n < 65536) :
    uint16BE (n / 256 % 256) (n % 256) = n := by
  simp only [uint16BE]
  omega

namespace B64

/-- The URL-safe base64 alphabet used by Go's encoding/base64 URLEncoding:
A-Z, a-z, 0-9, then 45 and 95 as the two extra characters. -/
def alphabet : List Nat :=
  [65, 66, 67, 68, 69, 70, 71, 72, 73, 74, 75, 76, 77, 78, 79, 80, 81, 82,
   83, 84, 85, 86, 87, 88, 89, 90,
   97, 98, 99, 100, 101, 102, 103, 104, 105, 106, 107, 108, 109, 110, 111,
   112, 113, 114, 115, 116, 117, 118, 119, 120, 121, 122,
   48, 49, 50, 51, 52, 53, 54, 55, 56, 57, 45, 95]

/-- Character for a 6-bit value. -/
def encChar (v : Nat) : Nat := alphabet.getD v 0

/-- Value of an alphabet character, none for characters outside the
alphabet. -/
def decChar (c : Nat) : Option Nat := alphabet.findIdx? (fun a => a = c)

/-- Modelled from the spec: URL-safe base64 encoding of a byte string, as
performed by Go's base64.URLEncoding.EncodeToString (the standard library is
not vendored in the repository). Three input bytes become four characters;
a final 1- or 2-byte group is padded with 61 ('='), with the unused trailing
bits of the last data character set to zero. -/
def encode : List Nat → List Nat
  | b1 :: b2 :: b3 :: rest =>
      encChar (b1 / 4) :: encChar (b1 % 4 * 16 + b2 / 16) ::
      encChar (b2 % 16 * 4 + b3 / 64) :: encChar (b3 % 64) :: encode rest
  | [b1, b2] => [encChar (b1 / 4), encChar (b1 % 4 * 16 + b2 / 16),
                 encChar (b2 % 16 * 4), 61]
  | [b1] => [encChar (b1 / 4), encChar (b1 % 4 * 16), 61, 61]
  | [] => []

/-- Modelled from the spec: quad-by-quad base64 decoding as performed by Go's
base64.URLEncoding.DecodeString in its default (non-Strict) mode. Padding 61
('=') may only terminate the input; a full final quad yields 3 bytes, a
"xy==" quad 1 byte and a "xyz=" quad 2 bytes. In non-Strict mode the unused
trailing bits of the last data character are ignored, not required to be
zero. Input whose (newline-filtered) length is not a multiple of 4 is
rejected. -/
def decodeQuads : List Nat → Option (List Nat)
  | [] => some []
  | c1 :: c2 :: c3 :: c4 :: rest =>
      match decChar c1, decChar c2 with
      | some v1, some v2 =>
          if c3 = 61 then
            if c4 = 61 ∧ rest = [] then some [v1 * 4 + v2 / 16] else none
          else
            match decChar c3 with
            | some v3 =>
                if c4 = 61 then
                  if rest = [] then
                    some [v1 * 4 + v2 / 16, v2 % 16 * 16 + v3 / 4]
                  else none
                else
                  match decChar c4 with
                  | some v4 =>
                      match decodeQuads rest with
                      | some tail =>
                          some ((v1 * 4 + v2 / 16) :: (v2 % 16 * 16 + v3 / 4) ::
                                (v3 % 4 * 64 + v4) :: tail)
                      | none => none
                  | none => none
            | none => none
      | _, _ => none
  | _ => none

/-- Go's base64 decoder ignores carriage returns and newlines before quad
processing. -/
def decode (s : List Nat) : Option (List Nat) :=
  decodeQuads (s.filter (fun c => c != 10 && c != 13))

theorem decChar_encChar {v : Nat} (h : v < 64) : decChar (encChar v) = some v := by
  interval_cases v <;> rfl

theorem encChar_mem_alphabet {v : Nat} (h : v < 64) : encChar v ∈ alphabet := by
  interval_cases v <;> decide

theorem alphabet_char_free {c : Nat} (h : c ∈ alphabet) :
    c ≠ 10 ∧ c ≠ 13 ∧ c ≠ 61 := by
  fin_cases h <;> exact ⟨by decide, by decide, by decide⟩

/-- Every character emitted by the encoder is in the alphabet or is the
padding character. -/
theorem encode_chars {bs : List Nat} (hwf : WFBytes bs) :
    ∀ c ∈ encode bs, c ∈ alphabet ∨ c = 61 := by
  induction bs using encode.induct with
  | case1 b1 b2 b3 rest ih =>
      have h1 : b1 < 256 := hwf b1 (by simp [encode])
      have h2 : b2 < 256 := hwf b2 (by simp [encode])
      have h3 : b3 < 256 := hwf b3 (by simp [encode])
      intro c hc
      simp only [encode, List.mem_cons] at hc
      rcases hc with h | h | h | h | h
      · exact Or.inl (h ▸ encChar_mem_alphabet (by omega))
      · exact Or.inl (h ▸ encChar_mem_alphabet (by omega))
      · exact Or.inl (h ▸ encChar_mem_alphabet (by omega))
      · exact Or.inl (h ▸ encChar_mem_alphabet (by omega))
      · exact ih (fun b hb => hwf b (by simp [hb])) c h
  | case2 b1 b2 =>
      have h1 : b1 < 256 := hwf b1 (by simp)
      have h2 : b2 < 256 := hwf b2 (by simp)
      intro c hc
      simp only [encode, List.mem_cons, List.not_mem_nil, or_false] at hc
      rcases hc with h | h | h | h
      · exact Or.inl (h ▸ encChar_mem_alphabet (by omega))
      · exact Or.inl (h ▸ encChar_mem_alphabet (by omega))
      · exact Or.inl (h ▸ encChar_mem_alphabet (by omega))
      · exact Or.inr h
  | case3 b1 =>
      have h1 : b1 < 256 := hwf b1 (by simp)
      intro c hc
      simp only [encode, List.mem_cons, List.not_mem_nil, or_false] at hc
      rcases hc with h | h | h | h
      · exact Or.inl (h ▸ encChar_mem_alphabet (by omega))
      · exact Or.inl (h ▸ encChar_mem_alphabet (by omega))
      · exact Or.inr h
      · exact Or.inr h
  | case4 =>
      intro c hc
      simp [encode] at hc

/-- The newline filter leaves encoder output unchanged. -/
theorem filter_encode {bs : List Nat} (hwf : WFBytes bs) :
    (encode bs).filter (fun c => c != 10 && c != 13) = encode bs := by
  rw [List.filter_eq_self]
  intro c hc
  rcases encode_chars hwf c hc with h | h
  · rcases alphabet_char_free h with ⟨h10, h13, _⟩
    simp [h10, h13]
  · subst h; decide

theorem decodeQuads_encode {bs : List Nat} (hwf : WFBytes bs) :
    decodeQuads (encode bs) = some bs := by
  induction bs using encode.induct with
  | case1 b1 b2 b3 rest ih =>
      have h1 : b1 < 256 := hwf b1 (by simp)
      have h2 : b2 < 256 := hwf b2 (by simp)
      have h3 : b3 < 256 := hwf b3 (by simp)
      have hne : encChar (b2 % 16 * 4 + b3 / 64) ≠ 61 :=
        (alphabet_char_free (encChar_mem_alphabet (by omega))).2.2
      rw [encode, decodeQuads]
      rw [decChar_encChar (by omega : b1 / 4 < 64),
          decChar_encChar (by omega : b1 % 4 * 16 + b2 / 16 < 64)]
      simp only [hne, if_false, decChar_encChar (by omega : b2 % 16 * 4 + b3 / 64 < 64)]
      have hne4 : encChar (b3 % 64) ≠ 61 :=
        (alphabet_char_free (encChar_mem_alphabet (by omega))).2.2
      simp only [hne4, if_false, decChar_encChar (by omega : b3 % 64 < 64)]
      rw [ih (fun b hb => hwf b (by simp [hb]))]
      have e1 : b1 / 4 * 4 + (b1 % 4 * 16 + b2 / 16) / 16 = b1 := by omega
      have e2 : (b1 % 4 * 16 + b2 / 16) % 16 * 16 + (b2 % 16 * 4 + b3 / 64) / 4 = b2 := by
        omega
      have e3 : (b2 % 16 * 4 + b3 / 64) % 4 * 64 + b3 % 64 = b3 := by omega
      rw [e1, e2, e3]
  | case2 b1 b2 =>
      have h1 : b1 < 256 := hwf b1 (by simp)
      have h2 : b2 < 256 := hwf b2 (by simp)
      have hne : encChar (b2 % 16 * 4) ≠ 61 :=
        (alphabet_char_free (encChar_mem_alphabet (by omega))).2.2
      rw [encode, decodeQuads]
      rw [decChar_encChar (by omega : b1 / 4 < 64),
          decChar_encChar (by omega : b1 % 4 * 16 + b2 / 16 < 64)]
      simp only [hne, if_false, decChar_encChar (by omega : b2 % 16 * 4 < 64)]
      simp only [if_true, reduceIte]
      have e1 : b1 / 4 * 4 + (b1 % 4 * 16 + b2 / 16) / 16 = b1 := by omega
      have e2 : (b1 % 4 * 16 + b2 / 16) % 16 * 16 + b2 % 16 * 4 / 4 = b2 := by omega
      rw [e1, e2]
  | case3 b1 =>
      have h1 : b1 < 256 := hwf b1 (by simp)
      rw [encode, decodeQuads]
      rw [decChar_encChar (by omega : b1 / 4 < 64),
          decChar_encChar (by omega : b1 % 4 * 16 < 64)]
      simp only [if_true, reduceIte, and_self]
      have e1 : b1 / 4 * 4 + b1 % 4 * 16 / 16 = b1 := by omega
      rw [e1]
  | case4 => rfl

/-- Base64 round-trip: decoding an encoding recovers the bytes. -/
theorem decode_encode {bs : List Nat} (hwf : WFBytes bs) :
    decode (encode bs) = some bs := by
  rw [decode, filter_encode hwf, decodeQuads_encode hwf]

end B64

/-- FNV-1a 64-bit hash over a byte string (hash/fnv New64a followed by Write
and Sum64): fold of xor-then-multiply by the FNV prime, modulo 2^64, from the
FNV offset basis. -/
def fnv64a (bs : List Nat) : Nat :=
  bs.foldl (fun h b => (h ^^^ b) * 1099511628211 % 18446744073709551616)
    14695981039346656037

namespace Secretbox

/-- Modelled from the spec: the repository calls
golang.org/x/crypto/nacl/secretbox, whose implementation (XSalsa20-Poly1305)
is not vendored. The spec requires only a "symmetric authenticated-encryption
primitive with a 32-byte key (secret-box style: XSalsa20-Poly1305 or
equivalent)". The keystream is modelled as a concrete key/nonce-determined
byte stream; the only properties the development uses are that it is a
deterministic function of (key, nonce, position) and produces bytes. -/
def streamByte (key nonce : List Nat) (i : Nat) : Nat :=
  fnv64a (key ++ nonce ++ putUint32 i) % 256

/-- First n keystream bytes for a key/nonce pair. -/
def stream (key nonce : List Nat) (n : Nat) : List Nat :=
  (List.range n).map (streamByte key nonce)

/-- Modelled from the spec: the 16-byte authenticator tag (Poly1305 in the
real library) computed over the ciphertext under the keystream-derived
32-byte subkey; modelled as a concrete deterministic function of
(subkey, ciphertext) producing 16 bytes. -/
def tagBytes (polyKey ct : List Nat) : List Nat :=
  putUint32 (fnv64a (putUint32 0 ++ polyKey ++ ct)) ++
  putUint32 (fnv64a (putUint32 1 ++ polyKey ++ ct)) ++
  putUint32 (fnv64a (putUint32 2 ++ polyKey ++ ct)) ++
  putUint32 (fnv64a (putUint32 3 ++ polyKey ++ ct))

/-- Modelled from the spec: secretbox.Seal. The first 32 keystream bytes form
the authenticator subkey, the message is XORed with the following keystream
bytes, and the output is the 16-byte tag followed by the ciphertext (the
layout golang.org/x/crypto/nacl/secretbox produces). -/
def sealBox (message nonce key : List Nat) : List Nat :=
  let s := stream key nonce (32 + message.length)
  let ct := List.zipWith (fun m k => m ^^^ k) message (s.drop 32)
  tagBytes (s.take 32) ct ++ ct

/-- Modelled from the spec: secretbox.Open. Fails (returns none) when the box
is shorter than the 16-byte tag or when the recomputed tag differs from the
stored one; otherwise XORs the ciphertext with the keystream again. -/
def openBox (box nonce key : List Nat) : Option (List Nat) :=
  if box.length < 16 then none
  else
    let tag := box.take 16
    let ct := box.drop 16
    let s := stream key nonce (32 + ct.length)
    if tag = tagBytes (s.take 32) ct then
      some (List.zipWith (fun c k => c ^^^ k) ct (s.drop 32))
    else none

theorem stream_length (key nonce : List Nat) (n : Nat) :
    (stream key nonce n).length = n := by
  simp [stream]

theorem stream_wf (key nonce : List Nat) (n : Nat) : WFBytes (stream key nonce n) := by
  intro b hb
  simp only [stream, List.mem_map] at hb
  obtain ⟨i, -, rfl⟩ := hb
  exact Nat.mod_lt _ (by norm_num)

theorem tagBytes_length (polyKey ct : List Nat) : (tagBytes polyKey ct).length = 16 := by
  simp [tagBytes, putUint32]

theorem tagBytes_wf (polyKey ct : List Nat) : WFBytes (tagBytes polyKey ct) := by
  intro b hb
  simp only [tagBytes, List.mem_append] at hb
  rcases hb with ((h | h) | h) | h <;> exact putUint32_wf _ _ h

theorem zipWith_xor_length (m s : List Nat) (h : m.length ≤ s.length) :
    (List.zipWith (fun a k => a ^^^ k) m s).length = m.length := by
  rw [List.length_zipWith]
  omega

theorem zipWith_xor_cancel (m s : List Nat) (h : m.length ≤ s.length) :
    List.zipWith (fun c k => c ^^^ k)
      (List.zipWith (fun a k => a ^^^ k) m s) s = m := by
  induction m generalizing s with
  | nil => simp
  | cons a m ih =>
      cases s with
      | nil => simp at h
      | cons k s =>
          simp only [List.zipWith_cons_cons, List.cons.injEq]
          exact ⟨Nat.xor_cancel_right k a, ih s (by simpa using h)⟩

theorem zipWith_xor_wf (m s : List Nat) (hm : WFBytes m) (hs : WFBytes s) :
    WFBytes (List.zipWith (fun a k => a ^^^ k) m s) := by
  intro b hb
  rw [List.mem_iff_getElem] at hb
  obtain ⟨i, hi, rfl⟩ := hb
  have hlen : i < m.length ∧ i < s.length := by
    rw [List.length_zipWith] at hi
    omega
  rw [List.getElem_zipWith]
  exact Nat.xor_lt_two_pow (n := 8) (hm _ (List.getElem_mem hlen.1))
    (hs _ (List.getElem_mem hlen.2))

theorem sealBox_length (message nonce key : List Nat) :
    (sealBox message nonce key).length = 16 + message.length := by
  simp only [sealBox, List.length_append, tagBytes_length]
  rw [zipWith_xor_length]
  rw [List.length_drop, stream_length]
  omega

theorem sealBox_wf (message nonce key : List Nat) (hm : WFBytes message) :
    WFBytes (sealBox message nonce key) := by
  intro b hb
  simp only [sealBox, List.mem_append] at hb
  rcases hb with h | h
  · exact tagBytes_wf _ _ _ h
  · exact zipWith_xor_wf _ _ hm
      (fun x hx => stream_wf key nonce (32 + message.length) x (List.mem_of_mem_drop hx)) _ h

/-- Opening a sealed box recovers the message. -/
theorem openBox_sealBox (message nonce key : List Nat) :
    openBox (sealBox message nonce key) nonce key = some message := by
  have hslen : (stream key nonce (32 + message.length)).length = 32 + message.length :=
    stream_length _ _ _
  have hdlen : message.length ≤ ((stream key nonce (32 + message.length)).drop 32).length := by
    rw [List.length_drop, hslen]
    omega
  have hct : (List.zipWith (fun m k => m ^^^ k) message
      ((stream key nonce (32 + message.length)).drop 32)).length = message.length :=
    zipWith_xor_length _ _ hdlen
  have hbox : sealBox message nonce key =
      tagBytes ((stream key nonce (32 + message.length)).take 32)
        (List.zipWith (fun m k => m ^^^ k) message
          ((stream key nonce (32 + message.length)).drop 32)) ++
      List.zipWith (fun m k => m ^^^ k) message
        ((stream key nonce (32 + message.length)).drop 32) := rfl
  rw [openBox, if_neg (by rw [sealBox_length]; omega), hbox]
  dsimp only
  rw [show (16 : Nat) = (tagBytes ((stream key nonce (32 + message.length)).take 32)
      (List.zipWith (fun m k => m ^^^ k) message
        ((stream key nonce (32 + message.length)).drop 32))).length from
      (tagBytes_length _ _).symm]
  rw [List.take_left, List.drop_left, hct, if_pos rfl]
  exact congrArg some (zipWith_xor_cancel message _ hdlen)

end Secretbox

namespace Pixiecore

/-- signURL from pixiecore (urlsign.go): the 24-byte random nonce drawn from
crypto/rand is passed explicitly; out starts as the nonce and
secretbox.Seal appends the sealed box, and the ID is the URL-safe base64 of
nonce followed by the sealed box. -/
def signURL (u nonce key : List Nat) : List Nat :=
  B64.encode (nonce ++ Secretbox.sealBox u nonce key)

/-- getURL from pixiecore (urlsign.go): base64-decode, reject blobs shorter
than 24 bytes, split off the 24-byte nonce and open the remainder with the
key; none models every error return. -/
def getURL (id key : List Nat) : Option (List Nat) :=
  match B64.decode id with
  | none => none
  | some signed =>
      if signed.length < 24 then none
      else Secretbox.openBox (signed.drop 24) (signed.take 24) key

/-- C4: for every URL byte string u and signing key k, verifying the id
produced by signing u with k succeeds and returns exactly u (the signed-URL
round-trip), for any 24-byte nonce drawn by signURL. -/
theorem claim_C4_sign_verify_roundtrip (u nonce key : List Nat)
    (hu : WFBytes u) (hn : WFBytes nonce) (hnl : nonce.length = 24)
    (hkl : key.length = 32) :
    getURL (signURL u nonce key) key = some u := by
  have hwf : WFBytes (nonce ++ Secretbox.sealBox u nonce key) := by
    intro b hb
    rcases List.mem_append.mp hb with h | h
    · exact hn b h
    · exact Secretbox.sealBox_wf u nonce key hu b h
  rw [getURL, signURL, B64.decode_encode hwf]
  have hlen : (nonce ++ Secretbox.sealBox u nonce key).length = 40 + u.length := by
    rw [List.length_append, hnl, Secretbox.sealBox_length]
    omega
  dsimp only
  rw [if_neg (by omega)]
  rw [show (24 : Nat) = nonce.length from hnl.symm, List.drop_left, List.take_left]
  exact Secretbox.openBox_sealBox u nonce key

/-- Witness for C4 at a concrete URL, nonce and key. -/
theorem claim_C4_sign_verify_roundtrip_witness :
    getURL (signURL [104, 105] (List.replicate 24 3) (List.replicate 32 7))
      (List.replicate 32 7) = some [104, 105] :=
  claim_C4_sign_verify_roundtrip [104, 105] (List.replicate 24 3)
    (List.replicate 32 7) (by decide) (by decide) (by decide) (by decide)

end Pixiecore

namespace B64

/-- Encoding distributes over an append at a 3-byte boundary. -/
theorem encode_append {bs : List Nat} (h : bs.length % 3 = 0) (t : List Nat) :
    encode (bs ++ t) = encode bs ++ encode t := by
  induction bs using encode.induct with
  | case1 b1 b2 b3 rest ih =>
      simp only [List.cons_append, encode, List.length_cons] at h ⊢
      rw [List.append_eq, ih (by omega)]
  | case2 b1 b2 => simp at h
  | case3 b1 => simp at h
  | case4 => simp [encode]

/-- Decoding an encoded 3-byte-aligned prefix followed by arbitrary
characters decodes the prefix and continues with the rest. -/
theorem decodeQuads_encode_append {bs : List Nat} (hwf : WFBytes bs)
    (h3 : bs.length % 3 = 0) (t : List Nat) :
    decodeQuads (encode bs ++ t) = (decodeQuads t).map (fun tail => bs ++ tail) := by
  induction bs using encode.induct with
  | case1 b1 b2 b3 rest ih =>
      have h1 : b1 < 256 := hwf b1 (by simp)
      have h2 : b2 < 256 := hwf b2 (by simp)
      have h3' : b3 < 256 := hwf b3 (by simp)
      have hrest : rest.length % 3 = 0 := by
        simp only [List.length_cons] at h3
        omega
      have hne : encChar (b2 % 16 * 4 + b3 / 64) ≠ 61 :=
        (alphabet_char_free (encChar_mem_alphabet (by omega))).2.2
      have hne4 : encChar (b3 % 64) ≠ 61 :=
        (alphabet_char_free (encChar_mem_alphabet (by omega))).2.2
      rw [encode]
      simp only [List.cons_append]
      rw [decodeQuads]
      rw [decChar_encChar (by omega : b1 / 4 < 64),
          decChar_encChar (by omega : b1 % 4 * 16 + b2 / 16 < 64)]
      simp only [hne, if_false, decChar_encChar (by omega : b2 % 16 * 4 + b3 / 64 < 64)]
      simp only [hne4, if_false, decChar_encChar (by omega : b3 % 64 < 64)]
      rw [ih (fun b hb => hwf b (by simp [hb])) hrest]
      have e1 : b1 / 4 * 4 + (b1 % 4 * 16 + b2 / 16) / 16 = b1 := by omega
      have e2 : (b1 % 4 * 16 + b2 / 16) % 16 * 16 + (b2 % 16 * 4 + b3 / 64) / 4 = b2 := by
        omega
      have e3 : (b2 % 16 * 4 + b3 / 64) % 4 * 64 + b3 % 64 = b3 := by omega
      rw [e1, e2, e3]
      cases decodeQuads t <;> rfl
  | case2 b1 b2 => simp at h3
  | case3 b1 => simp at h3
  | case4 =>
      simp only [encode, List.nil_append]
      cases decodeQuads t <;> rfl

end B64

/-- Replace the last element of a list (the single-byte modification the
spec's test mutates). -/
def setLast (l : List Nat) (c : Nat) : List Nat := l.dropLast ++ [c]

namespace Pixiecore

/-- C5 (amended): for URLs whose byte length is a multiple of 3 the signed id
ends in base64 padding, and replacing its last character by anything else
makes verification fail. -/
theorem claim_C5_last_char_mutation_fails (u nonce key : List Nat) (c : Nat)
    (hu : WFBytes u) (hn : WFBytes nonce) (hnl : nonce.length = 24)
    (hmod : u.length % 3 = 0) (hc : c ≠ 61) :
    getURL (setLast (signURL u nonce key) c) key = none := by
  have hwf : WFBytes (nonce ++ Secretbox.sealBox u nonce key) := by
    intro b hb
    rcases List.mem_append.mp hb with h | h
    · exact hn b h
    · exact Secretbox.sealBox_wf u nonce key hu b h
  have hblen : (nonce ++ Secretbox.sealBox u nonce key).length = 40 + u.length := by
    rw [List.length_append, hnl, Secretbox.sealBox_length]
    omega
  -- split the blob into a 3-byte-aligned prefix and its last byte
  have hne : nonce ++ Secretbox.sealBox u nonce key ≠ [] := by
    intro h
    rw [h] at hblen
    simp only [List.length_nil] at hblen
    omega
  obtain ⟨pre, z, hsplit⟩ :
      ∃ pre z, nonce ++ Secretbox.sealBox u nonce key = pre ++ [z] := by
    refine ⟨(nonce ++ Secretbox.sealBox u nonce key).dropLast,
      (nonce ++ Secretbox.sealBox u nonce key).getLast hne, ?_⟩
    exact (List.dropLast_append_getLast hne).symm
  have hprewf : WFBytes pre := fun b hb => hwf b (by simp [hsplit, hb])
  have hzlt : z < 256 := hwf z (by simp [hsplit])
  have hpre3 : pre.length % 3 = 0 := by
    rw [hsplit, List.length_append] at hblen
    simp only [List.length_cons, List.length_nil] at hblen
    omega
  rw [signURL, hsplit, B64.encode_append hpre3]
  have hid : B64.encode pre ++ B64.encode [z] =
      (B64.encode pre ++ [B64.encChar (z / 4), B64.encChar (z % 4 * 16), 61]) ++ [61] := by
    rw [B64.encode]
    simp
  rw [setLast, hid, List.dropLast_concat]
  have hfilter : ((B64.encode pre ++ [B64.encChar (z / 4), B64.encChar (z % 4 * 16), 61]) ++
      [c]).filter (fun x => x != 10 && x != 13) =
      B64.encode pre ++ ([B64.encChar (z / 4), B64.encChar (z % 4 * 16), 61] ++
        [c].filter (fun x => x != 10 && x != 13)) := by
    rw [List.append_assoc, List.filter_append, B64.filter_encode hprewf, List.filter_append]
    have hq : [B64.encChar (z / 4), B64.encChar (z % 4 * 16), 61].filter
        (fun x => x != 10 && x != 13) = [B64.encChar (z / 4), B64.encChar (z % 4 * 16), 61] := by
      rw [List.filter_eq_self]
      intro a ha
      simp only [List.mem_cons, List.not_mem_nil, or_false] at ha
      rcases ha with h | h | h
      · subst h
        rcases B64.alphabet_char_free (B64.encChar_mem_alphabet (by omega : z / 4 < 64))
          with ⟨ha10, ha13, -⟩
        simp [ha10, ha13]
      · subst h
        rcases B64.alphabet_char_free (B64.encChar_mem_alphabet (by omega : z % 4 * 16 < 64))
          with ⟨ha10, ha13, -⟩
        simp [ha10, ha13]
      · simp [h]
    rw [hq]
  rw [getURL, B64.decode, hfilter]
  by_cases hcnl : c = 10 ∨ c = 13
  · have hcf : [c].filter (fun x => x != 10 && x != 13) = [] := by
      rcases hcnl with h | h <;> simp [h]
    rw [hcf, List.append_nil,
        B64.decodeQuads_encode_append hprewf hpre3]
    rfl
  · have hcf : [c].filter (fun x => x != 10 && x != 13) = [c] := by
      push_neg at hcnl
      simp [hcnl.1, hcnl.2]
    rw [hcf, B64.decodeQuads_encode_append hprewf hpre3]
    have hquad : B64.decodeQuads [B64.encChar (z / 4), B64.encChar (z % 4 * 16), 61, c] = none := by
      rw [B64.decodeQuads]
      rw [B64.decChar_encChar (by omega : z / 4 < 64),
          B64.decChar_encChar (by omega : z % 4 * 16 < 64)]
      simp [hc]
    rw [show [B64.encChar (z / 4), B64.encChar (z % 4 * 16), 61] ++ [c] =
        [B64.encChar (z / 4), B64.encChar (z % 4 * 16), 61, c] from rfl, hquad]
    rfl

/-- Witness for the amended C5 theorem at the spec test's URL with a concrete
key, nonce and replacement character. -/
theorem claim_C5_last_char_mutation_fails_witness :
    getURL (setLast (signURL
        [104, 116, 116, 112, 58, 47, 47, 116, 101, 115, 116, 46, 101, 120, 97,
         109, 112, 108, 101, 47, 102, 111, 111, 47, 98, 97, 114]
        (List.replicate 24 3) (List.replicate 32 7)) 65) (List.replicate 32 7) = none :=
  claim_C5_last_char_mutation_fails
    [104, 116, 116, 112, 58, 47, 47, 116, 101, 115, 116, 46, 101, 120, 97,
     109, 112, 108, 101, 47, 102, 111, 111, 47, 98, 97, 114]
    (List.replicate 24 3) (List.replicate 32 7) 65
    (by decide) (by decide) (by decide) (by decide) (by decide)

end Pixiecore

set_option maxRecDepth 1000000

namespace Pixiecore

/-- Byte string of the spec test URL "http://test.example/foo/bar". -/
def c5URL : List Nat :=
  [104, 116, 116, 112, 58, 47, 47, 116, 101, 115, 116, 46, 101, 120, 97,
   109, 112, 108, 101, 47, 102, 111, 111, 47, 98, 97, 114]

/-- A concrete 32-byte signing key. -/
def c5Key : List Nat := List.replicate 32 7

/-- A concrete 24-byte nonce for signURL. -/
def c5Nonce : List Nat := List.replicate 24 3

/-- The signed id for the concrete URL, key and nonce (92 characters, ending
in two padding characters). -/
def c5Id : List Nat := signURL c5URL c5Nonce c5Key

/-- The id with the single character at index 89 (the last data character,
whose low four bits are base64 padding bits) replaced by the alphabet
character whose 6-bit value differs only in those unused trailing bits. -/
def c5Mutated : List Nat :=
  c5Id.set 89 (B64.encChar (((B64.decChar (c5Id.getD 89 0)).getD 0) ^^^ 1))

/-- C5 counterexample: a single-byte modification of a signed id (at index 89
of the 92-character id, replacing character 81 'Q' by 82 'R') that does NOT
cause a verification failure: the decoder ignores the unused trailing bits of
the final base64 data character, so verify succeeds and returns the original
URL. This refutes the claim that every single-byte modification at every
position fails verification. -/
theorem claim_C5_counterexample :
    c5Mutated.length = c5Id.length ∧ c5Mutated ≠ c5Id ∧
    getURL c5Mutated c5Key = some c5URL := by
  refine ⟨by simp [c5Mutated], by decide, by decide⟩

end Pixiecore

namespace Dhcp6

/-- Option (dhcp6/options.go): a DHCPv6 option with uint16 ID and Length and
a byte-string Value. Named DhcpOption because Option is taken in Lean. -/
structure DhcpOption where
  id : Nat
  length : Nat
  value : List Nat
deriving DecidableEq, Repr

/-- Errors of the option/packet codec. panicked models a Go runtime panic
from out-of-range slicing; the others are the error returns of
UnmarshalOption. -/
inductive ParseError where
  | panicked
  | oddOroLength (len : Nat)
  | optionTooLong (id len avail : Nat)
deriving DecidableEq, Repr

/-- Options (map[uint16][]*Option) as an association list whose keys appear
in first-insertion order; Go map iteration order is unspecified, and the
embedding uses this insertion order as the canonical iteration order. -/
structure Options where
  entries : List (Nat × List DhcpOption)
deriving DecidableEq, Repr

/-- Append an option to the list stored under key opt.id, creating the key at
the end on first use (the shared logic of Options.Add and the accumulation in
UnmarshalOptions). -/
def appendEntry : List (Nat × List DhcpOption) → DhcpOption → List (Nat × List DhcpOption)
  | [], opt => [(opt.id, [opt])]
  | (k, l) :: rest, opt =>
      if k = opt.id then (k, l ++ [opt]) :: rest
      else (k, l) :: appendEntry rest opt

/-- Options.Add. -/
def Options.add (o : Options) (opt : DhcpOption) : Options :=
  ⟨appendEntry o.entries opt⟩

/-- Lookup of o[id] on the Go map. -/
def Options.find (o : Options) (id : Nat) : Option (List DhcpOption) :=
  o.entries.lookup id

/-- UnmarshalOption (dhcp6/options.go): reads the big-endian length and id
from the first four bytes (panicking when fewer than four bytes remain), then
for the Option-Request option (6) only checks that the length is even — Go
slices bs[4:4+length] without a bounds check there, so an oversized ORO
length is a runtime panic — while every other id gets the explicit bounds
check and error. -/
def UnmarshalOption (bs : List Nat) : Except ParseError DhcpOption :=
  if bs.length < 4 then .error .panicked
  else
    let optionLength := uint16BE (bs.getD 2 0) (bs.getD 3 0)
    let optionID := uint16BE (bs.getD 0 0) (bs.getD 1 0)
    if optionID = 6 then
      if optionLength % 2 ≠ 0 then .error (.oddOroLength optionLength)
      else if bs.length - 4 < optionLength then .error .panicked
      else .ok ⟨optionID, optionLength, (bs.drop 4).take optionLength⟩
    else
      if bs.length - 4 < optionLength then
        .error (.optionTooLong optionID optionLength (bs.length - 4))
      else .ok ⟨optionID, optionLength, (bs.drop 4).take optionLength⟩

/-- The loop body of UnmarshalOptions: while bytes remain, parse one option,
append it under its id and continue after its 4+length bytes. -/
def unmarshalOptionsAux (bs : List Nat) (acc : Options) : Except ParseError Options :=
  if hbs : bs = [] then .ok acc
  else
    match UnmarshalOption bs with
    | .error e => .error e
    | .ok o =>
        unmarshalOptionsAux (bs.drop (4 + o.length))
          (acc.add ⟨o.id, o.length, (bs.drop 4).take o.length⟩)
termination_by bs.length
decreasing_by
  have : bs.length ≠ 0 := fun h => hbs (List.eq_nil_of_length_eq_zero h)
  simp only [List.length_drop]
  omega

/-- UnmarshalOptions (dhcp6/options.go). -/
def UnmarshalOptions (bs : List Nat) : Except ParseError Options :=
  unmarshalOptionsAux bs ⟨[]⟩

/-- Option.Marshal: big-endian id, big-endian length, then the value bytes
(the binary.Write calls cannot fail on a bytes.Buffer). -/
def DhcpOption.marshal (o : DhcpOption) : List Nat :=
  putUint16 o.id ++ putUint16 o.length ++ o.value

/-- Options.Marshal: concatenation of the serialized options, iterating keys
in the canonical (first-insertion) order and each key's list in order. -/
def Options.marshal (o : Options) : List Nat :=
  (o.entries.flatMap (fun kv => kv.2)).flatMap DhcpOption.marshal

/-- Packet (dhcp6/packet.go): message type byte, 3-byte transaction id,
options. -/
structure Packet where
  type : Nat
  transactionID : List Nat
  options : Options
deriving DecidableEq, Repr

/-- Unmarshal (dhcp6/packet.go): options are parsed from bs[4:packetLength]
(a Go-level panic when packetLength < 4 or longer than the buffer), the type
is byte 0 and the transaction id bytes 1-3. -/
def Unmarshal (bs : List Nat) (packetLength : Nat) : Except ParseError Packet :=
  if packetLength < 4 ∨ bs.length < packetLength then .error .panicked
  else
    match UnmarshalOptions ((bs.drop 4).take (packetLength - 4)) with
    | .error e => .error e
    | .ok opts => .ok ⟨bs.getD 0 0, (bs.drop 1).take 3, opts⟩

/-- Copy of the transaction id into the 3 zero bytes of the output header
(copy(ret[1:], p.TransactionID[:]) where TransactionID is a 3-byte array). -/
def padTo3 (tx : List Nat) : List Nat :=
  tx.take 3 ++ List.replicate (3 - tx.length) 0

/-- Packet.Marshal: type byte (byte(p.Type), i.e. reduced mod 256),
transaction id, marshalled options. -/
def Packet.marshal (p : Packet) : List Nat :=
  (p.type % 256) :: padTo3 p.transactionID ++ p.options.marshal

end Dhcp6

namespace Dhcp6

/-- Well-formedness of an option as produced by a successful parse: the
uint16 fields are in range, the stored length equals the value's length, the
value is bytes, and an Option-Request option has even length. -/
def OptWF (o : DhcpOption) : Prop :=
  o.id < 65536 ∧ o.length = o.value.length ∧ o.value.length < 65536 ∧
  WFBytes o.value ∧ (o.id = 6 → o.length % 2 = 0)

/-- Well-formedness of a parsed Options map: keys are distinct, each group is
nonempty, and each stored option is well-formed and filed under its own id. -/
def OptionsWF (os : Options) : Prop :=
  (os.entries.map Prod.fst).Nodup ∧
  ∀ kv ∈ os.entries, kv.2 ≠ [] ∧ ∀ o ∈ kv.2, o.id = kv.1 ∧ OptWF o

theorem getD_lt_of_wf {bs : List Nat} (hwf : WFBytes bs) {i : Nat}
    (hi : i < bs.length) : bs.getD i 0 < 256 := by
  rw [List.getD_eq_getElem bs 0 hi]
  exact hwf _ (List.getElem_mem hi)

/-- A successful UnmarshalOption yields a well-formed option, whose value is
the corresponding slice and whose extent fits in the input. -/
theorem unmarshalOption_wf {bs : List Nat} {o : DhcpOption} (hwf : WFBytes bs)
    (h : UnmarshalOption bs = .ok o) :
    OptWF o ∧ o.value = (bs.drop 4).take o.length ∧ 4 + o.length ≤ bs.length := by
  rw [UnmarshalOption] at h
  by_cases hlen : bs.length < 4
  · rw [if_pos hlen] at h
    exact absurd h (by simp)
  rw [if_neg hlen] at h
  push_neg at hlen
  have hb0 : bs.getD 0 0 < 256 := getD_lt_of_wf hwf (by omega)
  have hb1 : bs.getD 1 0 < 256 := getD_lt_of_wf hwf (by omega)
  have hb2 : bs.getD 2 0 < 256 := getD_lt_of_wf hwf (by omega)
  have hb3 : bs.getD 3 0 < 256 := getD_lt_of_wf hwf (by omega)
  have hid : uint16BE (bs.getD 0 0) (bs.getD 1 0) < 65536 := by
    rw [uint16BE]
    omega
  have hl : uint16BE (bs.getD 2 0) (bs.getD 3 0) < 65536 := by
    rw [uint16BE]
    omega
  by_cases horo : uint16BE (bs.getD 0 0) (bs.getD 1 0) = 6
  · rw [if_pos horo] at h
    by_cases hodd : uint16BE (bs.getD 2 0) (bs.getD 3 0) % 2 ≠ 0
    · rw [if_pos hodd] at h
      exact absurd h (by simp)
    rw [if_neg hodd] at h
    by_cases hbig : bs.length - 4 < uint16BE (bs.getD 2 0) (bs.getD 3 0)
    · rw [if_pos hbig] at h
      exact absurd h (by simp)
    rw [if_neg hbig] at h
    push_neg at hbig hodd
    rw [Except.ok.injEq] at h
    subst h
    have hvlen : ((bs.drop 4).take (uint16BE (bs.getD 2 0) (bs.getD 3 0))).length =
        uint16BE (bs.getD 2 0) (bs.getD 3 0) := by
      rw [List.length_take, List.length_drop]
      omega
    refine ⟨⟨hid, hvlen.symm, ?_, ?_, fun _ => hodd⟩, rfl, ?_⟩
    · show ((bs.drop 4).take (uint16BE (bs.getD 2 0) (bs.getD 3 0))).length < 65536
      rw [hvlen]
      exact hl
    · show WFBytes ((bs.drop 4).take (uint16BE (bs.getD 2 0) (bs.getD 3 0)))
      intro b hb
      exact hwf b (List.mem_of_mem_drop (List.mem_of_mem_take hb))
    · show 4 + uint16BE (bs.getD 2 0) (bs.getD 3 0) ≤ bs.length
      omega
  · rw [if_neg horo] at h
    by_cases hbig : bs.length - 4 < uint16BE (bs.getD 2 0) (bs.getD 3 0)
    · rw [if_pos hbig] at h
      exact absurd h (by simp)
    rw [if_neg hbig] at h
    push_neg at hbig
    rw [Except.ok.injEq] at h
    subst h
    have hvlen : ((bs.drop 4).take (uint16BE (bs.getD 2 0) (bs.getD 3 0))).length =
        uint16BE (bs.getD 2 0) (bs.getD 3 0) := by
      rw [List.length_take, List.length_drop]
      omega
    refine ⟨⟨hid, hvlen.symm, ?_, ?_, fun h6 => absurd h6 horo⟩, rfl, ?_⟩
    · show ((bs.drop 4).take (uint16BE (bs.getD 2 0) (bs.getD 3 0))).length < 65536
      rw [hvlen]
      exact hl
    · show WFBytes ((bs.drop 4).take (uint16BE (bs.getD 2 0) (bs.getD 3 0)))
      intro b hb
      exact hwf b (List.mem_of_mem_drop (List.mem_of_mem_take hb))
    · show 4 + uint16BE (bs.getD 2 0) (bs.getD 3 0) ≤ bs.length
      omega

/-- The keys of appendEntry: unchanged when the id is already present,
extended at the end otherwise. -/
theorem appendEntry_keys (es : List (Nat × List DhcpOption)) (o : DhcpOption) :
    (appendEntry es o).map Prod.fst =
      if o.id ∈ es.map Prod.fst then es.map Prod.fst
      else es.map Prod.fst ++ [o.id] := by
  induction es with
  | nil => simp [appendEntry]
  | cons kv rest ih =>
      obtain ⟨k, l⟩ := kv
      by_cases hk : k = o.id
      · subst hk
        simp [appendEntry]
      · rw [appendEntry, if_neg hk]
        simp only [List.map_cons, List.mem_cons]
        rw [ih]
        by_cases hmem : o.id ∈ rest.map Prod.fst
        · rw [if_pos hmem, if_pos (Or.inr hmem)]
        · rw [if_neg hmem, if_neg (by
            intro hor
            rcases hor with h | h
            · exact hk h.symm
            · exact hmem h)]
          simp

/-- Adding a well-formed option preserves Options well-formedness. -/
theorem optionsWF_add {os : Options} {o : DhcpOption} (hwf : OptionsWF os)
    (ho : OptWF o) : OptionsWF (os.add o) := by
  obtain ⟨hnd, hgr⟩ := hwf
  constructor
  · show ((appendEntry os.entries o).map Prod.fst).Nodup
    rw [appendEntry_keys]
    by_cases hmem : o.id ∈ os.entries.map Prod.fst
    · rw [if_pos hmem]
      exact hnd
    · rw [if_neg hmem]
      simp only [List.nodup_append, List.nodup_cons, List.not_mem_nil,
        not_false_iff, List.nodup_nil, and_true, true_and]
      refine ⟨hnd, ?_⟩
      intro a ha hb
      simp only [List.mem_singleton] at hb
      exact hmem (hb ▸ ha)
  · show ∀ kv ∈ appendEntry os.entries o, _
    have : ∀ es, (∀ kv ∈ es, kv.2 ≠ [] ∧ ∀ x ∈ kv.2, x.id = kv.1 ∧ OptWF x) →
        ∀ kv ∈ appendEntry es o, kv.2 ≠ [] ∧ ∀ x ∈ kv.2, x.id = kv.1 ∧ OptWF x := by
      intro es
      induction es with
      | nil =>
          intro _ kv hkv
          simp only [appendEntry, List.mem_singleton] at hkv
          subst hkv
          exact ⟨by simp, by
            intro x hx
            simp only [List.mem_singleton] at hx
            subst hx
            exact ⟨rfl, ho⟩⟩
      | cons hd rest ih =>
          intro hes kv hkv
          obtain ⟨k, l⟩ := hd
          by_cases hk : k = o.id
          · subst hk
            rw [appendEntry, if_pos rfl] at hkv
            rcases List.mem_cons.mp hkv with h | h
            · subst h
              have hhd := hes (o.id, l) (by simp)
              refine ⟨by simp, ?_⟩
              intro x hx
              rcases List.mem_append.mp hx with h | h
              · exact hhd.2 x h
              · simp only [List.mem_singleton] at h
                subst h
                exact ⟨rfl, ho⟩
            · exact hes kv (List.mem_cons_of_mem _ h)
          · rw [appendEntry, if_neg hk] at hkv
            rcases List.mem_cons.mp hkv with h | h
            · subst h
              exact hes (k, l) (by simp)
            · exact ih (fun kv h => hes kv (List.mem_cons_of_mem _ h)) kv h
    exact this os.entries hgr

/-- A successful unmarshalOptionsAux run preserves Options well-formedness. -/
theorem unmarshalOptionsAux_wf {bs : List Nat} {acc os : Options}
    (hb : WFBytes bs) (hacc : OptionsWF acc)
    (h : unmarshalOptionsAux bs acc = .ok os) : OptionsWF os := by
  induction bs, acc using unmarshalOptionsAux.induct with
  | case1 acc =>
      rw [unmarshalOptionsAux] at h
      simp only [reduceDIte, Except.ok.injEq] at h
      exact h ▸ hacc
  | case2 bs acc hbs e he =>
      rw [unmarshalOptionsAux, dif_neg hbs, he] at h
      exact absurd h (by simp)
  | case3 bs acc hbs o ho ih =>
      rw [unmarshalOptionsAux, dif_neg hbs, ho] at h
      obtain ⟨⟨hid, hvl, hvlt, hvw, horo⟩, hval, hext⟩ := unmarshalOption_wf hb ho
      refine ih (fun b hbm => hb b (List.mem_of_mem_drop hbm)) ?_ h
      refine optionsWF_add hacc ⟨hid, ?_, ?_, ?_, horo⟩
      · show o.length = ((bs.drop 4).take o.length).length
        rw [List.length_take, List.length_drop]
        omega
      · show ((bs.drop 4).take o.length).length < 65536
        rw [List.length_take, List.length_drop]
        omega
      · show WFBytes ((bs.drop 4).take o.length)
        intro b hbm
        exact hb b (List.mem_of_mem_drop (List.mem_of_mem_take hbm))

/-- A successful UnmarshalOptions yields a well-formed Options map. -/
theorem unmarshalOptions_wf {bs : List Nat} {os : Options} (hb : WFBytes bs)
    (h : UnmarshalOptions bs = .ok os) : OptionsWF os :=
  unmarshalOptionsAux_wf hb ⟨by simp, by simp⟩ h

end Dhcp6

namespace Dhcp6

/-- Parsing a marshalled well-formed option from the head of a byte string
recovers the option and consumes exactly its bytes. -/
theorem unmarshalOption_marshal {o : DhcpOption} (hwf : OptWF o) (t : List Nat) :
    UnmarshalOption (o.marshal ++ t) = .ok o ∧
    (o.marshal ++ t).drop (4 + o.length) = t := by
  obtain ⟨hid, hlen, hlt, hv, horo⟩ := hwf
  have hm : o.marshal ++ t = (o.id / 256 % 256) :: (o.id % 256) ::
      (o.length / 256 % 256) :: (o.length % 256) :: (o.value ++ t) := by
    simp [DhcpOption.marshal, putUint16]
  have hlenlt : o.length < 65536 := hlen ▸ hlt
  constructor
  · rw [hm, UnmarshalOption]
    simp only [List.getD_cons_zero, List.getD_cons_succ, List.length_cons]
    rw [if_neg (by omega)]
    rw [uint16BE_putUint16 o.id hid, uint16BE_putUint16 o.length hlenlt]
    have hdrop : ((o.id / 256 % 256) :: (o.id % 256) :: (o.length / 256 % 256) ::
        (o.length % 256) :: (o.value ++ t)).drop 4 = o.value ++ t := rfl
    have htake : (o.value ++ t).take o.length = o.value := by
      rw [hlen, List.take_left]
    by_cases h6 : o.id = 6
    · rw [if_pos h6]
      rw [if_neg (by simpa using horo h6)]
      rw [if_neg (by
        simp only [List.length_cons, List.length_append]
        omega)]
      rw [hdrop, htake]
    · rw [if_neg h6]
      rw [if_neg (by
        simp only [List.length_cons, List.length_append]
        omega)]
      rw [hdrop, htake]
  · have hml : o.marshal.length = 4 + o.length := by
      simp only [DhcpOption.marshal, List.length_append, putUint16_length]
      omega
    rw [show 4 + o.length = o.marshal.length from hml.symm, List.drop_left]

/-- Running the options loop over a concatenation of marshalled well-formed
options appends each of them to the accumulator in order. -/
theorem unmarshalOptionsAux_flatMap (opts : List DhcpOption) (acc : Options)
    (h : ∀ o ∈ opts, OptWF o) :
    unmarshalOptionsAux (opts.flatMap DhcpOption.marshal) acc =
      .ok (opts.foldl Options.add acc) := by
  induction opts generalizing acc with
  | nil => simp [unmarshalOptionsAux]
  | cons o rest ih =>
      have ho := h o (by simp)
      obtain ⟨hok, hdrop⟩ := unmarshalOption_marshal ho (rest.flatMap DhcpOption.marshal)
      have hne : o.marshal ++ rest.flatMap DhcpOption.marshal ≠ [] := by
        intro hcontra
        have := congrArg List.length hcontra
        simp only [List.length_append, List.length_nil, DhcpOption.marshal,
          putUint16_length] at this
        omega
      rw [List.flatMap_cons, unmarshalOptionsAux, dif_neg hne]
      simp only [hok]
      have hval : ((o.marshal ++ rest.flatMap DhcpOption.marshal).drop 4).take o.length
          = o.value := by
        have hm : o.marshal ++ rest.flatMap DhcpOption.marshal =
            (o.id / 256 % 256) :: (o.id % 256) :: (o.length / 256 % 256) ::
            (o.length % 256) :: (o.value ++ rest.flatMap DhcpOption.marshal) := by
          simp [DhcpOption.marshal, putUint16]
        rw [hm]
        show (o.value ++ rest.flatMap DhcpOption.marshal).take o.length = o.value
        rw [ho.2.1, List.take_left]
      rw [hval, hdrop]
      have hrebuild : (DhcpOption.mk o.id o.length o.value) = o := rfl
      rw [hrebuild, ih _ (fun x hx => h x (List.mem_cons_of_mem _ hx))]
      rfl

/-- Appending an option whose id differs from the head key skips the head
entry. -/
theorem appendEntry_skip {k : Nat} {gl : List DhcpOption}
    (es : List (Nat × List DhcpOption)) {o : DhcpOption} (hne : k ≠ o.id) :
    appendEntry ((k, gl) :: es) o = (k, gl) :: appendEntry es o := by
  rw [appendEntry, if_neg hne]

/-- Folding a group of options that all carry the head key appends them to
the head entry. -/
theorem foldl_appendEntry_group (l : List DhcpOption) (k : Nat) (p : List DhcpOption)
    (es : List (Nat × List DhcpOption)) (hl : ∀ o ∈ l, o.id = k) :
    l.foldl appendEntry ((k, p) :: es) = (k, p ++ l) :: es := by
  induction l generalizing p with
  | nil => simp
  | cons o rest ih =>
      have ho : o.id = k := hl o (by simp)
      rw [List.foldl_cons, appendEntry, if_pos ho.symm,
        ih (p ++ [o]) (fun x hx => hl x (List.mem_cons_of_mem _ hx))]
      simp

/-- Folding options whose ids all differ from the head key leaves the head
entry in place. -/
theorem foldl_appendEntry_untouched (l : List DhcpOption) (k : Nat)
    (gl : List DhcpOption) (es : List (Nat × List DhcpOption))
    (hl : ∀ o ∈ l, o.id ≠ k) :
    l.foldl appendEntry ((k, gl) :: es) = (k, gl) :: l.foldl appendEntry es := by
  induction l generalizing es with
  | nil => simp
  | cons o rest ih =>
      rw [List.foldl_cons, appendEntry_skip es (fun h => hl o (by simp) h.symm),
        ih _ (fun x hx => hl x (List.mem_cons_of_mem _ hx))]
      rw [List.foldl_cons]

/-- Refolding the flattened options of a well-formed entry list rebuilds
it. -/
theorem foldl_appendEntry_entries (es : List (Nat × List DhcpOption))
    (hnd : (es.map Prod.fst).Nodup)
    (hgr : ∀ kv ∈ es, kv.2 ≠ [] ∧ ∀ o ∈ kv.2, o.id = kv.1 ∧ OptWF o) :
    (es.flatMap (fun kv => kv.2)).foldl appendEntry [] = es := by
  induction es with
  | nil => simp
  | cons kv rest ih =>
      obtain ⟨k, gl⟩ := kv
      obtain ⟨hgne, hgids⟩ := hgr (k, gl) (by simp)
      obtain ⟨o1, gtail, rfl⟩ : ∃ o1 gtail, gl = o1 :: gtail := by
        cases gl with
        | nil => exact absurd rfl hgne
        | cons a b => exact ⟨a, b, rfl⟩
      rw [List.flatMap_cons, List.foldl_append, List.foldl_cons]
      have ho1 : appendEntry [] o1 = [(k, [o1])] := by
        rw [appendEntry, (hgids o1 (by simp)).1]
      rw [ho1, foldl_appendEntry_group gtail k [o1] []
        (fun x hx => (hgids x (List.mem_cons_of_mem _ hx)).1)]
      have hkeys : ∀ o ∈ rest.flatMap (fun kv => kv.2), o.id ≠ k := by
        intro o ho hk'
        obtain ⟨kv', hkv', hov⟩ := List.mem_flatMap.mp ho
        have hoid := (hgr kv' (List.mem_cons_of_mem _ hkv')).2 o hov
        have hkmem : k ∈ rest.map Prod.fst := by
          rw [← hk', hoid.1]
          exact List.mem_map_of_mem Prod.fst hkv'
        simp only [List.map_cons, List.nodup_cons] at hnd
        exact hnd.1 hkmem
      rw [foldl_appendEntry_untouched _ k _ [] hkeys]
      have hrest := ih (by
        simp only [List.map_cons, List.nodup_cons] at hnd
        exact hnd.2) (fun kv h => hgr kv (List.mem_cons_of_mem _ h))
      rw [hrest]
      simp

/-- Marshalling a well-formed Options map and parsing the bytes back yields
the identical map. -/
theorem unmarshalOptions_marshal {os : Options} (hwf : OptionsWF os) :
    UnmarshalOptions os.marshal = .ok os := by
  have hopts : ∀ o ∈ os.entries.flatMap (fun kv => kv.2), OptWF o := by
    intro o ho
    obtain ⟨kv, hkv, hov⟩ := List.mem_flatMap.mp ho
    exact ((hwf.2 kv hkv).2 o hov).2
  rw [UnmarshalOptions, Options.marshal,
    unmarshalOptionsAux_flatMap _ ⟨[]⟩ hopts]
  have hfold : ∀ (l : List DhcpOption) (es : List (Nat × List DhcpOption)),
      l.foldl Options.add ⟨es⟩ = ⟨l.foldl appendEntry es⟩ := by
    intro l
    induction l with
    | nil => intro es; rfl
    | cons o rest ih =>
        intro es
        rw [List.foldl_cons, List.foldl_cons]
        exact ih _
  rw [hfold, foldl_appendEntry_entries os.entries hwf.1 hwf.2]

end Dhcp6

namespace Dhcp6

/-- C6: for every DHCPv6 packet that Unmarshal accepts (from any byte string
and length), marshalling it and unmarshalling the result yields a
structurally identical packet: same type, same 3-byte transaction id, and the
same options with identical ids, lengths and values. -/
theorem claim_C6_marshal_unmarshal_roundtrip (bs : List Nat) (n : Nat) (p : Packet)
    (hwf : WFBytes bs) (h : Unmarshal bs n = .ok p) :
    Unmarshal p.marshal p.marshal.length = .ok p := by
  rw [Unmarshal] at h
  by_cases hcond : n < 4 ∨ bs.length < n
  · rw [if_pos hcond] at h
    exact absurd h (by simp)
  rw [if_neg hcond] at h
  push_neg at hcond
  obtain ⟨hn4, hbn⟩ := hcond
  cases hu : UnmarshalOptions ((bs.drop 4).take (n - 4)) with
  | error e =>
      rw [hu] at h
      exact absurd h (by simp)
  | ok os =>
      rw [hu] at h
      simp only [Except.ok.injEq] at h
      subst h
      have hsubwf : WFBytes ((bs.drop 4).take (n - 4)) := fun b hb =>
        hwf b (List.mem_of_mem_drop (List.mem_of_mem_take hb))
      have hos := unmarshalOptions_wf hsubwf hu
      have htype : bs.getD 0 0 < 256 := getD_lt_of_wf hwf (by omega)
      have htx : ((bs.drop 1).take 3).length = 3 := by
        rw [List.length_take, List.length_drop]
        omega
      generalize hg : (bs.drop 1).take 3 = tx at htx ⊢
      have hpad : padTo3 tx = tx := by
        rw [padTo3, htx]
        simp only [Nat.sub_self, List.replicate_zero, List.append_nil]
        exact List.take_of_length_le (by omega)
      have hmarshal : Packet.marshal ⟨bs.getD 0 0, tx, os⟩ =
          bs.getD 0 0 :: (tx ++ os.marshal) := by
        rw [Packet.marshal]
        simp only [hpad, Nat.mod_eq_of_lt htype]
        rfl
      rw [hmarshal, Unmarshal]
      have hlen : (bs.getD 0 0 :: (tx ++ os.marshal)).length =
          4 + os.marshal.length := by
        simp only [List.length_cons, List.length_append, htx]
        omega
      rw [if_neg (by omega)]
      have hdrop4 : (bs.getD 0 0 :: (tx ++ os.marshal)).drop 4 = os.marshal := by
        show (tx ++ os.marshal).drop 3 = os.marshal
        rw [← htx, List.drop_left]
      rw [hdrop4, hlen]
      rw [show 4 + os.marshal.length - 4 = os.marshal.length by omega, List.take_length]
      rw [unmarshalOptions_marshal hos]
      have htake3 : ((bs.getD 0 0 :: (tx ++ os.marshal)).drop 1).take 3 = tx := by
        show (tx ++ os.marshal).take 3 = tx
        rw [← htx, List.take_left]
      rw [List.getD_cons_zero, htake3]

/-- Witness for C6 at a concrete parseable packet: a Solicit with transaction
id "123", a client id option and an even-length option-request option. -/
theorem claim_C6_marshal_unmarshal_roundtrip_witness :
    Unmarshal [1, 49, 50, 51, 0, 1, 0, 2, 65, 66, 0, 6, 0, 2, 0, 59] 16 = .ok
      (Packet.mk 1 [49, 50, 51]
        ⟨[(1, [⟨1, 2, [65, 66]⟩]), (6, [⟨6, 2, [0, 59]⟩])]⟩) ∧
    Unmarshal (Packet.mk 1 [49, 50, 51]
        ⟨[(1, [⟨1, 2, [65, 66]⟩]), (6, [⟨6, 2, [0, 59]⟩])]⟩).marshal
      (Packet.mk 1 [49, 50, 51]
        ⟨[(1, [⟨1, 2, [65, 66]⟩]), (6, [⟨6, 2, [0, 59]⟩])]⟩).marshal.length = .ok
      (Packet.mk 1 [49, 50, 51]
        ⟨[(1, [⟨1, 2, [65, 66]⟩]), (6, [⟨6, 2, [0, 59]⟩])]⟩) := by
  have h1 : Unmarshal [1, 49, 50, 51, 0, 1, 0, 2, 65, 66, 0, 6, 0, 2, 0, 59] 16 = .ok
      (Packet.mk 1 [49, 50, 51]
        ⟨[(1, [⟨1, 2, [65, 66]⟩]), (6, [⟨6, 2, [0, 59]⟩])]⟩) := by
    simp [Unmarshal, UnmarshalOptions, unmarshalOptionsAux, UnmarshalOption,
      uint16BE, Options.add, appendEntry, List.getD]
  exact ⟨h1, claim_C6_marshal_unmarshal_roundtrip _ 16 _ (by decide) h1⟩

end Dhcp6

namespace Dhcp6

/-- IdentityAssociation (dhcp6/identity_association.go): an ip address
associated with a client's network interface. Time is modelled as a Nat
tick count. -/
structure IdentityAssociation where
  IPAddress : List Nat
  ClientID : List Nat
  InterfaceID : List Nat
  CreatedAt : Nat
deriving DecidableEq, Repr

/-- MakeOption: an option whose Length is uint16(len(value)). -/
def MakeOption (id : Nat) (value : List Nat) : DhcpOption :=
  ⟨id, value.length % 65536, value⟩

/-- Write a byte string into the leading 16 bytes of a zeroed field
(copy(value[0:], addr) with a 16-byte region). -/
def ipField (addr : List Nat) : List Nat :=
  addr.take 16 ++ List.replicate (16 - addr.length) 0

/-- MakeIaAddrOption: 16 address bytes, then preferred and valid lifetimes. -/
def MakeIaAddrOption (addr : List Nat) (preferredLifetime validLifetime : Nat) :
    DhcpOption :=
  MakeOption 5 (ipField addr ++ putUint32 preferredLifetime ++ putUint32 validLifetime)

/-- MakeIaNaOption: the first four interface-id bytes (Go slices iaid[0:4],
a runtime panic when shorter — theorems below assume length at least 4),
t1, t2, then the serialized inner option. -/
def MakeIaNaOption (iaid : List Nat) (t1 t2 : Nat) (iaOption : DhcpOption) :
    DhcpOption :=
  MakeOption 3 (iaid.take 4 ++ putUint32 t1 ++ putUint32 t2 ++ iaOption.marshal)

/-- MakeStatusOption: big-endian status code then the message bytes. -/
def MakeStatusOption (statusCode : Nat) (message : List Nat) : DhcpOption :=
  MakeOption 13 (putUint16 statusCode ++ message)

/-- MakeDNSServersOption: 16 bytes per server address. -/
def MakeDNSServersOption (addresses : List (List Nat)) : DhcpOption :=
  MakeOption 23 (addresses.flatMap ipField)

/-- The fixed 16-byte Vendor Class value "HTTPClient" the builder emits for
HTTP-boot clients. -/
def httpClientVendorValue : List Nat :=
  [0, 0, 0, 0, 0, 10, 72, 84, 84, 80, 67, 108, 105, 101, 110, 116]

/-- PacketBuilder (dhcp6/packet_builder.go) with its uint32 lifetimes. -/
structure PacketBuilder where
  PreferredLifetime : Nat
  ValidLifetime : Nat
deriving DecidableEq, Repr

/-- calculateT1: PreferredLifetime / 2 in uint32 arithmetic. -/
def PacketBuilder.calculateT1 (b : PacketBuilder) : Nat :=
  b.PreferredLifetime / 2

/-- calculateT2: (PreferredLifetime * 4) / 5 in uint32 arithmetic — the
multiplication wraps modulo 2^32 before the division. -/
def PacketBuilder.calculateT2 (b : PacketBuilder) : Nat :=
  b.PreferredLifetime * 4 % 4294967296 / 5

/-- The IA_NA option the builder emits for one reserved association. -/
def PacketBuilder.iaNaFor (b : PacketBuilder) (a : IdentityAssociation) : DhcpOption :=
  MakeIaNaOption a.InterfaceID b.calculateT1 b.calculateT2
    (MakeIaAddrOption a.IPAddress b.PreferredLifetime b.ValidLifetime)

/-- makeMsgAdvertise: client id, an IA_NA per association, server id, the
HTTPClient vendor class for arch 0x10, the boot-file url, then optional
preference and DNS-server options. -/
def PacketBuilder.makeMsgAdvertise (b : PacketBuilder) (transactionID : List Nat)
    (serverDUID clientID : List Nat) (clientArchType : Nat)
    (associations : List IdentityAssociation) (bootFileURL : List Nat)
    (preference : Option (List Nat)) (dnsServers : List (List Nat)) : Packet :=
  let o1 := (Options.mk []).add (MakeOption 1 clientID)
  let o2 := associations.foldl (fun os a => os.add (b.iaNaFor a)) o1
  let o3 := o2.add (MakeOption 2 serverDUID)
  let o4 := if clientArchType = 16 then o3.add (MakeOption 16 httpClientVendorValue)
            else o3
  let o5 := o4.add (MakeOption 59 bootFileURL)
  let o6 := match preference with
            | some p => o5.add (MakeOption 7 p)
            | none => o5
  let o7 := if 0 < dnsServers.length then o6.add (MakeDNSServersOption dnsServers)
            else o6
  ⟨2, transactionID, o7⟩

/-- makeMsgReply: like makeMsgAdvertise but with message type Reply, an IA_NA
carrying a NoAddrsAvailable status (code 2) for each interface id that could
not be served, and no preference option. -/
def PacketBuilder.makeMsgReply (b : PacketBuilder) (transactionID : List Nat)
    (serverDUID clientID : List Nat) (clientArchType : Nat)
    (associations : List IdentityAssociation) (iasWithoutAddresses : List (List Nat))
    (bootFileURL : List Nat) (dnsServers : List (List Nat))
    (errMessage : List Nat) : Packet :=
  let o1 := (Options.mk []).add (MakeOption 1 clientID)
  let o2 := associations.foldl (fun os a => os.add (b.iaNaFor a)) o1
  let o3 := iasWithoutAddresses.foldl (fun os ia =>
      os.add (MakeIaNaOption ia b.calculateT1 b.calculateT2
        (MakeStatusOption 2 errMessage))) o2
  let o4 := o3.add (MakeOption 2 serverDUID)
  let o5 := if clientArchType = 16 then o4.add (MakeOption 16 httpClientVendorValue)
            else o4
  let o6 := o5.add (MakeOption 59 bootFileURL)
  let o7 := if 0 < dnsServers.length then o6.add (MakeDNSServersOption dnsServers)
            else o6
  ⟨7, transactionID, o7⟩

/-- All options stored in an Options map, across every key. -/
def Options.allOpts (os : Options) : List DhcpOption :=
  os.entries.flatMap (fun kv => kv.2)

theorem mem_allOpts_add {os : Options} {o x : DhcpOption}
    (h : x ∈ (os.add o).allOpts) : x ∈ os.allOpts ∨ x = o := by
  obtain ⟨es⟩ := os
  show x ∈ es.flatMap (fun kv => kv.2) ∨ x = o
  have h' : x ∈ (appendEntry es o).flatMap (fun kv => kv.2) := h
  clear h
  induction es with
  | nil =>
      simp only [appendEntry, List.flatMap_cons, List.flatMap_nil] at h'
      simp only [List.append_nil, List.mem_singleton] at h'
      exact Or.inr h'
  | cons kv rest ih =>
      obtain ⟨k, l⟩ := kv
      by_cases hk : k = o.id
      · rw [appendEntry, if_pos hk] at h'
        simp only [List.flatMap_cons, List.mem_append] at h' ⊢
        rcases h' with (h' | h') | h'
        · exact Or.inl (Or.inl h')
        · simp only [List.mem_singleton] at h'
          exact Or.inr h'
        · exact Or.inl (Or.inr h')
      · rw [appendEntry, if_neg hk] at h'
        simp only [List.flatMap_cons, List.mem_append] at h' ⊢
        rcases h' with h' | h'
        · exact Or.inl (Or.inl h')
        · rcases ih h' with h'' | h''
          · exact Or.inl (Or.inr h'')
          · exact Or.inr h''

theorem mem_allOpts_foldl_add {α : Type} (f : α → DhcpOption) (l : List α)
    {os : Options} {x : DhcpOption}
    (h : x ∈ (l.foldl (fun acc a => acc.add (f a)) os).allOpts) :
    x ∈ os.allOpts ∨ ∃ a ∈ l, x = f a := by
  induction l generalizing os with
  | nil => exact Or.inl h
  | cons a rest ih =>
      rw [List.foldl_cons] at h
      rcases ih h with h' | h'
      · rcases mem_allOpts_add h' with h'' | h''
        · exact Or.inl h''
        · exact Or.inr ⟨a, by simp, h''⟩
      · obtain ⟨a', ha', rfl⟩ := h'
        exact Or.inr ⟨a', List.mem_cons_of_mem _ ha', rfl⟩

end Dhcp6

namespace Dhcp6

theorem mem_allOpts_add_ne {os : Options} {o x : DhcpOption}
    (h : x ∈ (os.add o).allOpts) (hne : o.id ≠ 3) (hx : x.id = 3) :
    x ∈ os.allOpts := by
  rcases mem_allOpts_add h with h' | rfl
  · exact h'
  · exact absurd hx hne

theorem mem_allOpts_ite_add {c : Prop} [Decidable c] {os : Options}
    {o x : DhcpOption} (h : x ∈ (if c then os.add o else os).allOpts)
    (hne : o.id ≠ 3) (hx : x.id = 3) : x ∈ os.allOpts := by
  by_cases hc : c
  · rw [if_pos hc] at h
    exact mem_allOpts_add_ne h hne hx
  · rwa [if_neg hc] at h

/-- The t1 and t2 fields of an IA_NA option occupy value bytes 4-8 and 8-12
when the interface id has at least 4 bytes. -/
theorem iaNa_t1_t2 {iaid : List Nat} (h4 : 4 ≤ iaid.length) (t1 t2 : Nat)
    (inner : DhcpOption) :
    ((MakeIaNaOption iaid t1 t2 inner).value.drop 4).take 4 = putUint32 t1 ∧
    ((MakeIaNaOption iaid t1 t2 inner).value.drop 8).take 4 = putUint32 t2 := by
  have hval : (MakeIaNaOption iaid t1 t2 inner).value =
      iaid.take 4 ++ (putUint32 t1 ++ (putUint32 t2 ++ inner.marshal)) := by
    simp [MakeIaNaOption, MakeOption, List.append_assoc]
  rw [hval]
  generalize hg : iaid.take 4 = i4
  have hi : i4.length = 4 := by
    rw [← hg, List.length_take]
    omega
  constructor
  · rw [show (4 : Nat) = i4.length from hi.symm, List.drop_left, hi]
    rw [show (4 : Nat) = (putUint32 t1).length from (putUint32_length t1).symm]
    exact List.take_left _ _
  · rw [← List.append_assoc]
    have h8 : (i4 ++ putUint32 t1).length = 8 := by
      rw [List.length_append, hi, putUint32_length]
    rw [show (8 : Nat) = (i4 ++ putUint32 t1).length from h8.symm, List.drop_left]
    rw [show (4 : Nat) = (putUint32 t2).length from (putUint32_length t2).symm]
    exact List.take_left _ _

/-- C9 (amended): in every IA_NA option of every Advertise or Reply the
builder emits, t1 = PreferredLifetime/2 and t2 = (PreferredLifetime*4 mod
2^32)/5 — the multiplication is uint32 arithmetic and wraps, so t2 is NOT the
exact integer (PreferredLifetime*4)/5 once PreferredLifetime reaches 2^30. -/
theorem claim_C9_iana_t1_t2 (b : PacketBuilder)
    (transactionID serverDUID clientID : List Nat) (clientArchType : Nat)
    (associations : List IdentityAssociation)
    (iasWithoutAddresses : List (List Nat)) (bootFileURL : List Nat)
    (preference : Option (List Nat)) (dnsServers : List (List Nat))
    (errMessage : List Nat)
    (hassoc : ∀ a ∈ associations, 4 ≤ a.InterfaceID.length)
    (hias : ∀ ia ∈ iasWithoutAddresses, 4 ≤ ia.length) :
    (∀ o ∈ (b.makeMsgAdvertise transactionID serverDUID clientID clientArchType
        associations bootFileURL preference dnsServers).options.allOpts,
      o.id = 3 →
      (o.value.drop 4).take 4 = putUint32 (b.PreferredLifetime / 2) ∧
      (o.value.drop 8).take 4 =
        putUint32 (b.PreferredLifetime * 4 % 4294967296 / 5)) ∧
    (∀ o ∈ (b.makeMsgReply transactionID serverDUID clientID clientArchType
        associations iasWithoutAddresses bootFileURL dnsServers
        errMessage).options.allOpts,
      o.id = 3 →
      (o.value.drop 4).take 4 = putUint32 (b.PreferredLifetime / 2) ∧
      (o.value.drop 8).take 4 =
        putUint32 (b.PreferredLifetime * 4 % 4294967296 / 5)) := by
  constructor
  · intro o ho hid
    cases preference with
    | none =>
        simp only [PacketBuilder.makeMsgAdvertise] at ho
        have h6 := mem_allOpts_ite_add ho (by simp [MakeDNSServersOption, MakeOption]) hid
        have h5 := mem_allOpts_add_ne h6 (by simp [MakeOption]) hid
        have h2 := mem_allOpts_ite_add h5 (by simp [MakeOption]) hid
        have h1 := mem_allOpts_add_ne h2 (by simp [MakeOption]) hid
        rcases mem_allOpts_foldl_add _ _ h1 with h0 | ⟨a, ha, rfl⟩
        · rcases mem_allOpts_add h0 with h0' | rfl
          · simp [Options.allOpts] at h0'
          · simp [MakeOption] at hid
        · exact iaNa_t1_t2 (hassoc a ha) _ _ _
    | some p =>
        simp only [PacketBuilder.makeMsgAdvertise] at ho
        have h6 := mem_allOpts_ite_add ho (by simp [MakeDNSServersOption, MakeOption]) hid
        have h5p := mem_allOpts_add_ne h6 (by simp [MakeOption]) hid
        have h5 := mem_allOpts_add_ne h5p (by simp [MakeOption]) hid
        have h2 := mem_allOpts_ite_add h5 (by simp [MakeOption]) hid
        have h1 := mem_allOpts_add_ne h2 (by simp [MakeOption]) hid
        rcases mem_allOpts_foldl_add _ _ h1 with h0 | ⟨a, ha, rfl⟩
        · rcases mem_allOpts_add h0 with h0' | rfl
          · simp [Options.allOpts] at h0'
          · simp [MakeOption] at hid
        · exact iaNa_t1_t2 (hassoc a ha) _ _ _
  · intro o ho hid
    simp only [PacketBuilder.makeMsgReply] at ho
    have h6 := mem_allOpts_ite_add ho (by simp [MakeDNSServersOption, MakeOption]) hid
    have h5 := mem_allOpts_add_ne h6 (by simp [MakeOption]) hid
    have h4 := mem_allOpts_ite_add h5 (by simp [MakeOption]) hid
    have h3 := mem_allOpts_add_ne h4 (by simp [MakeOption]) hid
    rcases mem_allOpts_foldl_add
      (fun ia => MakeIaNaOption ia b.calculateT1 b.calculateT2
        (MakeStatusOption 2 errMessage)) _ h3 with h2 | ⟨ia, hia, rfl⟩
    · rcases mem_allOpts_foldl_add _ _ h2 with h1 | ⟨a, ha, rfl⟩
      · rcases mem_allOpts_add h1 with h0 | rfl
        · simp [Options.allOpts] at h0
        · simp [MakeOption] at hid
      · exact iaNa_t1_t2 (hassoc a ha) _ _ _
    · exact iaNa_t1_t2 (hias ia hia) _ _ _

end Dhcp6

namespace Dhcp6

/-- Witness for C9 at a concrete builder and association list. -/
theorem claim_C9_iana_t1_t2_witness :
    (∀ o ∈ ((PacketBuilder.mk 27000 43200).makeMsgAdvertise [1, 2, 3] [9] [8] 0
        [⟨List.replicate 16 1, [7], [1, 2, 3, 4], 0⟩] [104] none
        []).options.allOpts,
      o.id = 3 →
      (o.value.drop 4).take 4 = putUint32 (27000 / 2) ∧
      (o.value.drop 8).take 4 = putUint32 (27000 * 4 % 4294967296 / 5)) ∧
    (∀ o ∈ ((PacketBuilder.mk 27000 43200).makeMsgReply [1, 2, 3] [9] [8] 0
        [⟨List.replicate 16 1, [7], [1, 2, 3, 4], 0⟩] [[5, 6, 7, 8]] [104] []
        [78, 111]).options.allOpts,
      o.id = 3 →
      (o.value.drop 4).take 4 = putUint32 (27000 / 2) ∧
      (o.value.drop 8).take 4 = putUint32 (27000 * 4 % 4294967296 / 5)) :=
  claim_C9_iana_t1_t2 (PacketBuilder.mk 27000 43200) [1, 2, 3] [9] [8] 0
    [⟨List.replicate 16 1, [7], [1, 2, 3, 4], 0⟩] [[5, 6, 7, 8]] [104] none []
    [78, 111] (by decide) (by decide)

/-- The Advertise built with PreferredLifetime 2^30 for one association. -/
def c9Advertise : Packet :=
  (PacketBuilder.mk 1073741824 200).makeMsgAdvertise [1, 2, 3] [9] [8] 0
    [⟨List.replicate 16 1, [7], [1, 2, 3, 4], 0⟩] [104] none []

/-- The IA_NA option of that Advertise. -/
def c9IaNa : DhcpOption := c9Advertise.options.allOpts.getD 1 ⟨0, 0, []⟩

/-- C9 counterexample: with PreferredLifetime = 2^30 the IA_NA's t2 bytes in
the emitted Advertise are putUint32 0 — the uint32 multiplication
PreferredLifetime*4 wraps to 0 — and not the claimed exact integer
(2^30 * 4)/5 = 858993459. -/
theorem claim_C9_counterexample :
    c9IaNa.id = 3 ∧ (c9IaNa.value.drop 8).take 4 = putUint32 0 ∧
    putUint32 0 ≠ putUint32 (1073741824 * 4 / 5) := by
  refine ⟨by decide, by decide, by decide⟩

end Dhcp6

/-- Digit-extraction loop for natToBytes, structurally recursive on a fuel
argument that bounds the number of divisions (n itself always suffices). -/
def natToBytesFuel : Nat → Nat → List Nat
  | 0, _ => []
  | fuel + 1, n => if n = 0 then [] else natToBytesFuel fuel (n / 256) ++ [n % 256]

/-- Minimal big-endian byte representation of a natural number
(big.Int.Bytes: zero becomes the empty slice). -/
def natToBytes (n : Nat) : List Nat := natToBytesFuel n n

/-- Big-endian bytes to a natural number (big.Int.SetBytes). -/
def bytesToNat (bs : List Nat) : Nat :=
  bs.foldl (fun a b => a * 256 + b) 0

namespace Pool

/-- associationExpiration (pool/random_address_pool.go). -/
structure AssociationExpiration where
  expiresAt : Nat
  ia : Dhcp6.IdentityAssociation
deriving DecidableEq, Repr

/-- Lookup in a Go map modelled as an association list with unique keys. -/
def mapLookup {α : Type} : List (Nat × α) → Nat → Option α
  | [], _ => none
  | (k, v) :: rest, key => if k = key then some v else mapLookup rest key

/-- Go map assignment m[k] = v. -/
def mapInsert {α : Type} : List (Nat × α) → Nat → α → List (Nat × α)
  | [], k, v => [(k, v)]
  | (k', v') :: rest, k, v =>
      if k' = k then (k, v) :: rest else (k', v') :: mapInsert rest k v

/-- Go map deletion delete(m, k). -/
def mapErase {α : Type} : List (Nat × α) → Nat → List (Nat × α)
  | [], _ => []
  | (k', v') :: rest, k =>
      if k' = k then rest else (k', v') :: mapErase rest k

/-- Set insertion (m[k] = struct{}{}). -/
def setInsert (s : List Nat) (k : Nat) : List Nat :=
  if k ∈ s then s else s ++ [k]

/-- Set deletion (delete(m, k)). -/
def setErase (s : List Nat) (k : Nat) : List Nat :=
  s.filter (fun x => x ≠ k)

/-- calculateIAIDHash: FNV-1a of clientID then interfaceID. -/
def calculateIAIDHash (clientID interfaceID : List Nat) : Nat :=
  fnv64a (clientID ++ interfaceID)

/-- The FNV key of an association as used by the expiration sweep and
release. -/
def iaHash (a : Dhcp6.IdentityAssociation) : Nat :=
  calculateIAIDHash a.ClientID a.InterfaceID

/-- The uint64 key of an association's address
(big.NewInt(0).SetBytes(...).Uint64(), i.e. the low 64 bits). -/
def iaAddrKey (a : Dhcp6.IdentityAssociation) : Nat :=
  bytesToNat a.IPAddress % 18446744073709551616

/-- RandomAddressPool (pool/random_address_pool.go). The injected timeNow
clock becomes an explicit now argument of each operation, and the per-call
rand source becomes an explicit list of uint64 draws. -/
structure RandomAddressPool where
  poolStartAddress : Nat
  poolSize : Nat
  identityAssociations : List (Nat × Dhcp6.IdentityAssociation)
  usedIps : List Nat
  identityAssociationExpirations : List AssociationExpiration
  validLifetime : Nat
deriving DecidableEq, Repr

/-- NewRandomAddressPool. -/
def NewRandomAddressPool (poolStartAddress : List Nat) (poolSize validLifetime : Nat) :
    RandomAddressPool :=
  ⟨bytesToNat poolStartAddress, poolSize, [], [], [], validLifetime⟩

/-- The expiration sweep loop: pop the FIFO head while it has expired,
removing the popped association's map entry and address; stop at the first
head that is still in the future. -/
def expireLoop (now : Nat) :
    List AssociationExpiration → List (Nat × Dhcp6.IdentityAssociation) →
    List Nat →
    List AssociationExpiration × List (Nat × Dhcp6.IdentityAssociation) × List Nat
  | [], assoc, used => ([], assoc, used)
  | e :: rest, assoc, used =>
      if now < e.expiresAt then (e :: rest, assoc, used)
      else expireLoop now rest (mapErase assoc (iaHash e.ia))
        (setErase used (iaAddrKey e.ia))

/-- expireIdentityAssociations. -/
def RandomAddressPool.expireIdentityAssociations (p : RandomAddressPool) (now : Nat) :
    RandomAddressPool :=
  let r := expireLoop now p.identityAssociationExpirations
    p.identityAssociations p.usedIps
  { p with identityAssociationExpirations := r.1,
           identityAssociations := r.2.1,
           usedIps := r.2.2 }

/-- Errors of ReserveAddresses: the pool-full error return, and a stuck
marker modelling that Go's unbounded random retry loop never returns when
the draw oracle is exhausted. -/
inductive PoolError where
  | noAddrsAvailable
  | stuck
deriving DecidableEq, Repr

/-- The random-draw retry loop: draw hostOffset = rng % poolSize and retry
while startAddress + hostOffset is in use. Returns the chosen address value
and the remaining draws, or none when the draw list is exhausted (the Go
loop would keep drawing). -/
def drawLoop (start poolSize : Nat) (used : List Nat) :
    List Nat → Option (Nat × List Nat)
  | [] => none
  | d :: rest =>
      let newIP := start + d % poolSize
      if newIP % 18446744073709551616 ∈ used then drawLoop start poolSize used rest
      else some (newIP, rest)

/-- The per-interface loop of ReserveAddresses: return the existing
association unchanged; otherwise fail when the pool is full, or draw a fresh
address, record the association in all three structures and enqueue its
expiration. -/
def reserveLoop (now : Nat) (clientID : List Nat) :
    List (List Nat) → RandomAddressPool → List Dhcp6.IdentityAssociation →
    List Nat →
    RandomAddressPool × List Dhcp6.IdentityAssociation × Option PoolError
  | [], p, ret, _ => (p, ret, none)
  | interfaceID :: rest, p, ret, draws =>
      let h := calculateIAIDHash clientID interfaceID
      match mapLookup p.identityAssociations h with
      | some a => reserveLoop now clientID rest p (ret ++ [a]) draws
      | none =>
          if p.usedIps.length = p.poolSize then (p, ret, some .noAddrsAvailable)
          else
            match drawLoop p.poolStartAddress p.poolSize p.usedIps draws with
            | none => (p, ret, some .stuck)
            | some (newIP, draws') =>
                let a : Dhcp6.IdentityAssociation :=
                  ⟨natToBytes newIP, clientID, interfaceID, now⟩
                reserveLoop now clientID rest
                  { p with
                    identityAssociations := mapInsert p.identityAssociations h a,
                    usedIps := setInsert p.usedIps (newIP % 18446744073709551616),
                    identityAssociationExpirations :=
                      p.identityAssociationExpirations ++
                        [⟨now + p.validLifetime, a⟩] }
                  (ret ++ [a]) draws'

/-- ReserveAddresses: sweep expired associations, then serve each interface
id in order. -/
def RandomAddressPool.ReserveAddresses (p : RandomAddressPool) (now : Nat)
    (clientID : List Nat) (interfaceIDs : List (List Nat)) (draws : List Nat) :
    RandomAddressPool × List Dhcp6.IdentityAssociation × Option PoolError :=
  reserveLoop now clientID interfaceIDs
    (p.expireIdentityAssociations now) [] draws

/-- The per-interface loop of ReleaseAddresses: silently skip unknown
tuples, otherwise free the address and drop the association — the FIFO
expiration entry is NOT removed. -/
def releaseLoop (clientID : List Nat) :
    List (List Nat) → RandomAddressPool → RandomAddressPool
  | [], p => p
  | interfaceID :: rest, p =>
      match mapLookup p.identityAssociations (calculateIAIDHash clientID interfaceID) with
      | none => releaseLoop clientID rest p
      | some a =>
          releaseLoop clientID rest
            { p with
              usedIps := setErase p.usedIps (iaAddrKey a),
              identityAssociations :=
                mapErase p.identityAssociations
                  (calculateIAIDHash clientID interfaceID) }

/-- ReleaseAddresses. -/
def RandomAddressPool.ReleaseAddresses (p : RandomAddressPool)
    (clientID : List Nat) (interfaceIDs : List (List Nat)) : RandomAddressPool :=
  releaseLoop clientID interfaceIDs p

end Pool

namespace Pool

/-- A pool of size 1 (start address 1, validLifetime 100). -/
def c3Pool : RandomAddressPool := NewRandomAddressPool [1] 1 100

/-- Reserve at t=0, release, then reserve again at t=2: the reservation
created at t=2 for (clientID [99], interfaceID [1,2,3,4]). The release left
the t=0 expiration entry in the FIFO. -/
def c3Run : RandomAddressPool × List Dhcp6.IdentityAssociation × Option PoolError :=
  ((c3Pool.ReserveAddresses 0 [99] [[1, 2, 3, 4]] [0]).1.ReleaseAddresses
    [99] [[1, 2, 3, 4]]).ReserveAddresses 2 [99] [[1, 2, 3, 4]] [0]

/-- The identity association created at t=2. -/
def c3Ia : Dhcp6.IdentityAssociation := c3Run.2.1.getD 0 ⟨[], [], [], 0⟩

/-- The reserve call for the same (clientID, interfaceID) at t'=100, which
is strictly before 2 + validLifetime = 102. -/
def c3Again : RandomAddressPool × List Dhcp6.IdentityAssociation × Option PoolError :=
  c3Run.1.ReserveAddresses 100 [99] [[1, 2, 3, 4]] [0]

/-- C3 counterexample: with a release interleaved before the reservation,
the stale FIFO expiration entry from the released reservation fires at
t'=100 and evicts the reservation created at t=2, so the reserve call at
t'=100 < 2 + validLifetime does NOT return that reservation unchanged — it
returns a freshly created association with CreatedAt = 100. -/
theorem claim_C3_counterexample :
    c3Ia.CreatedAt = 2 ∧ (100 : Nat) < 2 + 100 ∧
    c3Again.2.1 ≠ [c3Ia] ∧
    c3Again.2.1.map Dhcp6.IdentityAssociation.CreatedAt = [100] := by
  refine ⟨by decide, by decide, by decide, by decide⟩

end Pool

namespace Pool

theorem mapLookup_insert_self {α : Type} (m : List (Nat × α)) (k : Nat) (v : α) :
    mapLookup (mapInsert m k v) k = some v := by
  induction m with
  | nil => simp [mapInsert, mapLookup]
  | cons kv rest ih =>
      obtain ⟨k', v'⟩ := kv
      by_cases hk : k' = k
      · rw [mapInsert, if_pos hk, mapLookup, if_pos rfl]
      · rw [mapInsert, if_neg hk, mapLookup, if_neg hk]
        exact ih

theorem mapLookup_insert_ne {α : Type} (m : List (Nat × α)) {k k' : Nat} (v : α)
    (h : k' ≠ k) : mapLookup (mapInsert m k v) k' = mapLookup m k' := by
  induction m with
  | nil => simp [mapInsert, mapLookup, Ne.symm h]
  | cons kv rest ih =>
      obtain ⟨k0, v0⟩ := kv
      by_cases hk : k0 = k
      · subst hk
        rw [mapInsert, if_pos rfl, mapLookup, mapLookup,
          if_neg (fun hh => h hh.symm), if_neg (fun hh => h hh.symm)]
      · rw [mapInsert, if_neg hk, mapLookup, mapLookup]
        by_cases hk0 : k0 = k'
        · rw [if_pos hk0, if_pos hk0]
        · rw [if_neg hk0, if_neg hk0]
          exact ih

theorem mapLookup_erase_ne {α : Type} (m : List (Nat × α)) {k k' : Nat}
    (h : k' ≠ k) : mapLookup (mapErase m k) k' = mapLookup m k' := by
  induction m with
  | nil => rfl
  | cons kv rest ih =>
      obtain ⟨k0, v0⟩ := kv
      by_cases hk : k0 = k
      · subst hk
        rw [mapErase, if_pos rfl, mapLookup, if_neg (fun hh => h hh.symm)]
      · rw [mapErase, if_neg hk, mapLookup, mapLookup]
        by_cases hk0 : k0 = k'
        · rw [if_pos hk0, if_pos hk0]
        · rw [if_neg hk0, if_neg hk0]
          exact ih

theorem mapLookup_erase_self {α : Type} (m : List (Nat × α)) (k : Nat)
    (hnd : (m.map Prod.fst).Nodup) : mapLookup (mapErase m k) k = none := by
  induction m with
  | nil => rfl
  | cons kv rest ih =>
      obtain ⟨k0, v0⟩ := kv
      simp only [List.map_cons, List.nodup_cons] at hnd
      by_cases hk : k0 = k
      · subst hk
        rw [mapErase, if_pos rfl]
        cases hr : mapLookup rest k0 with
        | none => rfl
        | some a =>
            exfalso
            apply hnd.1
            clear ih hnd
            induction rest with
            | nil => simp [mapLookup] at hr
            | cons kv' rest' ih' =>
                obtain ⟨k1, v1⟩ := kv'
                rw [mapLookup] at hr
                by_cases hk1 : k1 = k0
                · simp [hk1]
                · rw [if_neg hk1] at hr
                  simp only [List.map_cons, List.mem_cons]
                  exact Or.inr (ih' hr)
      · rw [mapErase, if_neg hk, mapLookup, if_neg hk]
        exact ih hnd.2

theorem mapKeys_insert {α : Type} (m : List (Nat × α)) (k : Nat) (v : α) :
    (mapInsert m k v).map Prod.fst =
      if k ∈ m.map Prod.fst then m.map Prod.fst else m.map Prod.fst ++ [k] := by
  induction m with
  | nil => simp [mapInsert]
  | cons kv rest ih =>
      obtain ⟨k0, v0⟩ := kv
      by_cases hk : k0 = k
      · subst hk
        simp [mapInsert]
      · rw [mapInsert, if_neg hk]
        simp only [List.map_cons, List.mem_cons]
        rw [ih]
        by_cases hmem : k ∈ rest.map Prod.fst
        · rw [if_pos hmem, if_pos (Or.inr hmem)]
        · rw [if_neg hmem, if_neg (by
            intro hor
            rcases hor with h | h
            · exact hk h.symm
            · exact hmem h)]
          simp

theorem mapKeys_nodup_insert {α : Type} {m : List (Nat × α)} (k : Nat) (v : α)
    (hnd : (m.map Prod.fst).Nodup) : ((mapInsert m k v).map Prod.fst).Nodup := by
  rw [mapKeys_insert]
  by_cases hmem : k ∈ m.map Prod.fst
  · rwa [if_pos hmem]
  · rw [if_neg hmem]
    simp only [List.nodup_append, List.nodup_cons, List.not_mem_nil,
      not_false_iff, List.nodup_nil, and_true, true_and]
    refine ⟨hnd, ?_⟩
    intro a ha hb
    simp only [List.mem_singleton] at hb
    exact hmem (hb ▸ ha)

theorem mapKeys_nodup_erase {α : Type} {m : List (Nat × α)} (k : Nat)
    (hnd : (m.map Prod.fst).Nodup) : ((mapErase m k).map Prod.fst).Nodup := by
  induction m with
  | nil => simp [mapErase]
  | cons kv rest ih =>
      obtain ⟨k0, v0⟩ := kv
      simp only [List.map_cons, List.nodup_cons] at hnd
      by_cases hk : k0 = k
      · rw [mapErase, if_pos hk]
        exact hnd.2
      · rw [mapErase, if_neg hk]
        simp only [List.map_cons, List.nodup_cons]
        refine ⟨?_, ih hnd.2⟩
        intro hmem
        apply hnd.1
        clear ih hnd
        induction rest with
        | nil => simp [mapErase] at hmem
        | cons kv' rest' ih' =>
            obtain ⟨k1, v1⟩ := kv'
            rw [mapErase] at hmem
            by_cases hk1 : k1 = k
            · rw [if_pos hk1] at hmem
              simp only [List.map_cons, List.mem_cons]
              exact Or.inr hmem
            · rw [if_neg hk1] at hmem
              simp only [List.map_cons, List.mem_cons] at hmem ⊢
              rcases hmem with h | h
              · exact Or.inl h
              · exact Or.inr (ih' h)

theorem mapLookup_mem_keys {α : Type} {m : List (Nat × α)} {k : Nat} {a : α}
    (h : mapLookup m k = some a) : k ∈ m.map Prod.fst := by
  induction m with
  | nil => simp [mapLookup] at h
  | cons kv rest ih =>
      obtain ⟨k0, v0⟩ := kv
      rw [mapLookup] at h
      by_cases hk : k0 = k
      · simp [hk]
      · rw [if_neg hk] at h
        simp only [List.map_cons, List.mem_cons]
        exact Or.inr (ih h)

end Pool

namespace Pool

/-- Invariant of reserve-only pool runs, on the association map and the
expiration FIFO: map keys are distinct; every FIFO entry's association is
current in the map under its hash and expires exactly validLifetime after
its creation; FIFO entries have pairwise distinct hashes; and every mapped
key has a FIFO entry. ReleaseAddresses breaks this invariant (it removes the
map entry but leaves the FIFO entry), which is the C3 counterexample. -/
def InvParts (L : Nat) (assoc : List (Nat × Dhcp6.IdentityAssociation))
    (fifo : List AssociationExpiration) : Prop :=
  (assoc.map Prod.fst).Nodup ∧
  (∀ e ∈ fifo, mapLookup assoc (iaHash e.ia) = some e.ia ∧
    e.expiresAt = e.ia.CreatedAt + L) ∧
  (fifo.map (fun e => iaHash e.ia)).Nodup ∧
  (∀ k a, mapLookup assoc k = some a → ∃ e ∈ fifo, iaHash e.ia = k)

/-- The pool invariant. -/
def Inv (p : RandomAddressPool) : Prop :=
  InvParts p.validLifetime p.identityAssociations p.identityAssociationExpirations

theorem expireLoop_inv {L now : Nat} {fifo : List AssociationExpiration}
    {assoc : List (Nat × Dhcp6.IdentityAssociation)} {used : List Nat}
    (h : InvParts L assoc fifo) :
    InvParts L (expireLoop now fifo assoc used).2.1 (expireLoop now fifo assoc used).1 := by
  induction fifo generalizing assoc used with
  | nil => exact h
  | cons e rest ih =>
      by_cases hx : now < e.expiresAt
      · rw [expireLoop, if_pos hx]
        exact h
      · rw [expireLoop, if_neg hx]
        apply ih
        obtain ⟨hA, hB, hC, hD⟩ := h
        simp only [List.map_cons, List.nodup_cons] at hC
        refine ⟨mapKeys_nodup_erase _ hA, ?_, hC.2, ?_⟩
        · intro e' he'
          have hB' := hB e' (List.mem_cons_of_mem _ he')
          have hne : iaHash e'.ia ≠ iaHash e.ia := by
            intro heq
            exact hC.1 (heq ▸ List.mem_map_of_mem _ he')
          exact ⟨by rw [mapLookup_erase_ne _ hne]; exact hB'.1, hB'.2⟩
        · intro k a hk
          have hkk : k ≠ iaHash e.ia := by
            intro heq
            rw [heq, mapLookup_erase_self _ _ hA] at hk
            cases hk
          rw [mapLookup_erase_ne _ hkk] at hk
          obtain ⟨e', he', hh⟩ := hD k a hk
          rcases List.mem_cons.mp he' with rfl | he''
          · exact absurd hh.symm hkk
          · exact ⟨e', he'', hh⟩

theorem expireLoop_head {now : Nat} {fifo : List AssociationExpiration}
    {assoc : List (Nat × Dhcp6.IdentityAssociation)} {used : List Nat}
    {e : AssociationExpiration}
    (h : (expireLoop now fifo assoc used).1.head? = some e) : now < e.expiresAt := by
  induction fifo generalizing assoc used with
  | nil => simp [expireLoop] at h
  | cons e0 rest ih =>
      by_cases hx : now < e0.expiresAt
      · rw [expireLoop, if_pos hx] at h
        simp only [List.head?_cons, Option.some.injEq] at h
        exact h ▸ hx
      · rw [expireLoop, if_neg hx] at h
        exact ih h

theorem expireLoop_lookup {now : Nat} {fifo : List AssociationExpiration}
    {assoc : List (Nat × Dhcp6.IdentityAssociation)} {used : List Nat} {h' : Nat}
    (hf : ∀ e ∈ fifo, iaHash e.ia = h' → now < e.expiresAt) :
    mapLookup (expireLoop now fifo assoc used).2.1 h' = mapLookup assoc h' := by
  induction fifo generalizing assoc used with
  | nil => rfl
  | cons e rest ih =>
      by_cases hx : now < e.expiresAt
      · rw [expireLoop, if_pos hx]
      · rw [expireLoop, if_neg hx]
        rw [ih (fun e' he' => hf e' (List.mem_cons_of_mem _ he'))]
        apply mapLookup_erase_ne
        intro heq
        exact hx (hf e (by simp) heq.symm)

theorem expireLoop_noop {now : Nat} {fifo : List AssociationExpiration}
    {assoc : List (Nat × Dhcp6.IdentityAssociation)} {used : List Nat}
    (h : ∀ e, fifo.head? = some e → now < e.expiresAt) :
    expireLoop now fifo assoc used = (fifo, assoc, used) := by
  cases fifo with
  | nil => rfl
  | cons e rest => rw [expireLoop, if_pos (h e rfl)]

end Pool

namespace Pool

theorem reserveLoop_fields (now : Nat) (clientID : List Nat)
    (iids : List (List Nat)) (p : RandomAddressPool)
    (ret : List Dhcp6.IdentityAssociation) (draws : List Nat) :
    (reserveLoop now clientID iids p ret draws).1.poolStartAddress = p.poolStartAddress ∧
    (reserveLoop now clientID iids p ret draws).1.poolSize = p.poolSize ∧
    (reserveLoop now clientID iids p ret draws).1.validLifetime = p.validLifetime := by
  induction iids generalizing p ret draws with
  | nil => exact ⟨rfl, rfl, rfl⟩
  | cons iid rest ih =>
      cases hl : mapLookup p.identityAssociations (calculateIAIDHash clientID iid) with
      | some a =>
          simp only [reserveLoop, hl]
          exact ih p _ draws
      | none =>
          simp only [reserveLoop, hl]
          by_cases hfull : p.usedIps.length = p.poolSize
          · rw [if_pos hfull]
            exact ⟨rfl, rfl, rfl⟩
          · rw [if_neg hfull]
            cases hd : drawLoop p.poolStartAddress p.poolSize p.usedIps draws with
            | none => exact ⟨rfl, rfl, rfl⟩
            | some pr => exact ih _ _ _

theorem reserveLoop_lookup {now : Nat} {clientID : List Nat}
    {iids : List (List Nat)} {p : RandomAddressPool}
    {ret : List Dhcp6.IdentityAssociation} {draws : List Nat} {h : Nat}
    {ia : Dhcp6.IdentityAssociation}
    (hp : mapLookup p.identityAssociations h = some ia) :
    mapLookup (reserveLoop now clientID iids p ret draws).1.identityAssociations h
      = some ia := by
  induction iids generalizing p ret draws with
  | nil => exact hp
  | cons iid rest ih =>
      cases hl : mapLookup p.identityAssociations (calculateIAIDHash clientID iid) with
      | some a =>
          simp only [reserveLoop, hl]
          exact ih hp
      | none =>
          simp only [reserveLoop, hl]
          by_cases hfull : p.usedIps.length = p.poolSize
          · rw [if_pos hfull]
            exact hp
          · rw [if_neg hfull]
            cases hd : drawLoop p.poolStartAddress p.poolSize p.usedIps draws with
            | none => exact hp
            | some pr =>
                obtain ⟨newIP, draws'⟩ := pr
                apply ih
                have hne : h ≠ calculateIAIDHash clientID iid := by
                  intro heq
                  rw [heq, hl] at hp
                  cases hp
                show mapLookup (mapInsert p.identityAssociations
                  (calculateIAIDHash clientID iid) _) h = some ia
                rw [mapLookup_insert_ne _ _ hne]
                exact hp

theorem reserveLoop_inv {now : Nat} {clientID : List Nat}
    {iids : List (List Nat)} {p : RandomAddressPool}
    {ret : List Dhcp6.IdentityAssociation} {draws : List Nat}
    (h : Inv p) : Inv (reserveLoop now clientID iids p ret draws).1 := by
  induction iids generalizing p ret draws with
  | nil => exact h
  | cons iid rest ih =>
      cases hl : mapLookup p.identityAssociations (calculateIAIDHash clientID iid) with
      | some a =>
          simp only [reserveLoop, hl]
          exact ih h
      | none =>
          simp only [reserveLoop, hl]
          by_cases hfull : p.usedIps.length = p.poolSize
          · rw [if_pos hfull]
            exact h
          · rw [if_neg hfull]
            cases hd : drawLoop p.poolStartAddress p.poolSize p.usedIps draws with
            | none => exact h
            | some pr =>
                obtain ⟨newIP, draws'⟩ := pr
                apply ih
                obtain ⟨hA, hB, hC, hD⟩ := h
                have hnotin : ∀ e ∈ p.identityAssociationExpirations,
                    iaHash e.ia ≠ calculateIAIDHash clientID iid := by
                  intro e he heq
                  have := (hB e he).1
                  rw [heq, hl] at this
                  cases this
                show InvParts p.validLifetime _ _
                refine ⟨mapKeys_nodup_insert _ _ hA, ?_, ?_, ?_⟩
                · intro e he
                  rcases List.mem_append.mp he with he' | he'
                  · have hB' := hB e he'
                    refine ⟨?_, hB'.2⟩
                    rw [mapLookup_insert_ne _ _ (hnotin e he')]
                    exact hB'.1
                  · simp only [List.mem_singleton] at he'
                    subst he'
                    refine ⟨?_, rfl⟩
                    show mapLookup (mapInsert _ (calculateIAIDHash clientID iid) _)
                      (iaHash ⟨natToBytes newIP, clientID, iid, now⟩) = _
                    show mapLookup (mapInsert _ (calculateIAIDHash clientID iid) _)
                      (calculateIAIDHash clientID iid) = _
                    rw [mapLookup_insert_self]
                · rw [List.map_append]
                  simp only [List.map_cons, List.map_nil]
                  rw [List.nodup_append]
                  refine ⟨hC, List.nodup_singleton _, ?_⟩
                  intro x hx hy
                  simp only [List.mem_singleton] at hy
                  obtain ⟨e, he, rfl⟩ := List.mem_map.mp hx
                  exact hnotin e he (hy ▸ rfl)
                · intro k a' hk
                  by_cases hkh : k = calculateIAIDHash clientID iid
                  · refine ⟨⟨now + p.validLifetime,
                      ⟨natToBytes newIP, clientID, iid, now⟩⟩, by simp, ?_⟩
                    show calculateIAIDHash clientID iid = k
                    exact hkh.symm
                  · rw [mapLookup_insert_ne _ _ hkh] at hk
                    obtain ⟨e, he, hh⟩ := hD k a' hk
                    exact ⟨e, List.mem_append.mpr (Or.inl he), hh⟩

/-- expireIdentityAssociations preserves the invariant. -/
theorem expire_inv {p : RandomAddressPool} {now : Nat} (h : Inv p) :
    Inv (p.expireIdentityAssociations now) :=
  expireLoop_inv h

/-- ReserveAddresses preserves the invariant. -/
theorem reserve_inv {p : RandomAddressPool} {now : Nat} {c : List Nat}
    {iids : List (List Nat)} {draws : List Nat} (h : Inv p) :
    Inv (p.ReserveAddresses now c iids draws).1 :=
  reserveLoop_inv (expire_inv h)

/-- Under the invariant, an association that has not reached the end of its
valid lifetime survives any ReserveAddresses call. -/
theorem reserve_lookup_survives {p : RandomAddressPool} {now : Nat}
    {c : List Nat} {iids : List (List Nat)} {draws : List Nat} {h : Nat}
    {ia : Dhcp6.IdentityAssociation} (hinv : Inv p)
    (hl : mapLookup p.identityAssociations h = some ia)
    (hnow : now < ia.CreatedAt + p.validLifetime) :
    mapLookup (p.ReserveAddresses now c iids draws).1.identityAssociations h
      = some ia := by
  apply reserveLoop_lookup
  show mapLookup (p.expireIdentityAssociations now).identityAssociations h = some ia
  have hf : ∀ e ∈ p.identityAssociationExpirations, iaHash e.ia = h →
      now < e.expiresAt := by
    intro e he heq
    have hB := hinv.2.1 e he
    rw [heq, hl] at hB
    obtain ⟨hB1, hB2⟩ := hB
    have : e.ia = ia := by
      cases hB1
      rfl
    rw [hB2, this]
    exact hnow
  show mapLookup (expireLoop now p.identityAssociationExpirations
    p.identityAssociations p.usedIps).2.1 h = some ia
  rw [expireLoop_lookup hf]
  exact hl

end Pool

namespace Pool

/-- A pool operation: a ReserveAddresses call (with its clock reading and
random draws) or a ReleaseAddresses call. -/
inductive PoolOp where
  | reserveOp (now : Nat) (clientID : List Nat) (interfaceIDs : List (List Nat))
      (draws : List Nat)
  | releaseOp (clientID : List Nat) (interfaceIDs : List (List Nat))
deriving DecidableEq, Repr

/-- Run one pool operation, keeping the resulting pool state. -/
def runOp (p : RandomAddressPool) : PoolOp → RandomAddressPool
  | .reserveOp now c iids draws => (p.ReserveAddresses now c iids draws).1
  | .releaseOp c iids => p.ReleaseAddresses c iids

/-- Run a sequence of pool operations. -/
def runOps (p : RandomAddressPool) (ops : List PoolOp) : RandomAddressPool :=
  ops.foldl runOp p

/-- The operation is a reserve. -/
def PoolOp.isReserve : PoolOp → Prop
  | .reserveOp _ _ _ _ => True
  | .releaseOp _ _ => False

/-- The operation is a reserve whose clock reading is at most the bound. -/
def PoolOp.isReserveBy (bound : Nat) : PoolOp → Prop
  | .reserveOp now _ _ _ => now ≤ bound
  | .releaseOp _ _ => False

theorem inv_new (start : List Nat) (size L : Nat) :
    Inv (NewRandomAddressPool start size L) := by
  refine ⟨by simp [NewRandomAddressPool], ?_, by simp [NewRandomAddressPool], ?_⟩
  · intro e he
    simp [NewRandomAddressPool] at he
  · intro k a hk
    simp [NewRandomAddressPool, mapLookup] at hk

theorem reserve_fields (p : RandomAddressPool) (now : Nat) (c : List Nat)
    (iids : List (List Nat)) (draws : List Nat) :
    (p.ReserveAddresses now c iids draws).1.validLifetime = p.validLifetime := by
  rw [RandomAddressPool.ReserveAddresses]
  rw [(reserveLoop_fields now c iids (p.expireIdentityAssociations now) [] draws).2.2]
  rfl

/-- Under the invariant, an unexpired association survives the expiration
sweep. -/
theorem expire_lookup_survives {p : RandomAddressPool} {now : Nat} {h : Nat}
    {ia : Dhcp6.IdentityAssociation} (hinv : Inv p)
    (hl : mapLookup p.identityAssociations h = some ia)
    (hnow : now < ia.CreatedAt + p.validLifetime) :
    mapLookup (p.expireIdentityAssociations now).identityAssociations h = some ia := by
  have hf : ∀ e ∈ p.identityAssociationExpirations, iaHash e.ia = h →
      now < e.expiresAt := by
    intro e he heq
    have hB := hinv.2.1 e he
    rw [heq, hl] at hB
    obtain ⟨hB1, hB2⟩ := hB
    have hia : e.ia = ia := by
      cases hB1
      rfl
    rw [hB2, hia]
    exact hnow
  show mapLookup (expireLoop now p.identityAssociationExpirations
    p.identityAssociations p.usedIps).2.1 h = some ia
  rw [expireLoop_lookup hf]
  exact hl

/-- Under the invariant, a reserve for a pair whose unexpired association is
current returns exactly that association, with no error. -/
theorem reserve_returns_existing {p : RandomAddressPool} {now : Nat}
    {c i : List Nat} {draws : List Nat} {ia : Dhcp6.IdentityAssociation}
    (hinv : Inv p)
    (hl : mapLookup p.identityAssociations (calculateIAIDHash c i) = some ia)
    (hnow : now < ia.CreatedAt + p.validLifetime) :
    (p.ReserveAddresses now c [i] draws).2 = ([ia], none) := by
  rw [RandomAddressPool.ReserveAddresses]
  have hel := expire_lookup_survives hinv hl hnow
  simp only [reserveLoop, hel]
  rfl

/-- Any association a single-interface reserve call returns is current for
that (clientID, interfaceID) in the resulting pool. -/
theorem reserve_single_result {p : RandomAddressPool} {now : Nat} {c i : List Nat}
    {draws : List Nat} {p1 : RandomAddressPool}
    {ias : List Dhcp6.IdentityAssociation} {err : Option PoolError}
    (h : p.ReserveAddresses now c [i] draws = (p1, ias, err))
    {ia : Dhcp6.IdentityAssociation} (hia : ia ∈ ias) :
    mapLookup p1.identityAssociations (calculateIAIDHash c i) = some ia := by
  rw [RandomAddressPool.ReserveAddresses] at h
  cases hl : mapLookup (p.expireIdentityAssociations now).identityAssociations
      (calculateIAIDHash c i) with
  | some a =>
      simp only [reserveLoop, hl, List.nil_append] at h
      obtain ⟨rfl, rfl, rfl⟩ : p.expireIdentityAssociations now = p1 ∧ [a] = ias ∧
          (none : Option PoolError) = err := by
        simpa [Prod.ext_iff] using h
      simp only [List.mem_singleton] at hia
      subst hia
      exact hl
  | none =>
      simp only [reserveLoop, hl] at h
      by_cases hfull : (p.expireIdentityAssociations now).usedIps.length =
          (p.expireIdentityAssociations now).poolSize
      · rw [if_pos hfull] at h
        obtain ⟨rfl, rfl, rfl⟩ : p.expireIdentityAssociations now = p1 ∧
            ([] : List Dhcp6.IdentityAssociation) = ias ∧
            (some PoolError.noAddrsAvailable : Option PoolError) = err := by
          simpa [Prod.ext_iff] using h
        simp at hia
      · rw [if_neg hfull] at h
        cases hd : drawLoop (p.expireIdentityAssociations now).poolStartAddress
            (p.expireIdentityAssociations now).poolSize
            (p.expireIdentityAssociations now).usedIps draws with
        | none =>
            rw [hd] at h
            obtain ⟨rfl, rfl, rfl⟩ : p.expireIdentityAssociations now = p1 ∧
                ([] : List Dhcp6.IdentityAssociation) = ias ∧
                (some PoolError.stuck : Option PoolError) = err := by
              simpa [Prod.ext_iff] using h
            simp at hia
        | some pr =>
            obtain ⟨newIP, draws'⟩ := pr
            rw [hd] at h
            simp only [reserveLoop, List.nil_append] at h
            obtain ⟨hp1, hias, -⟩ : _ = p1 ∧
                [(⟨natToBytes newIP, c, i, now⟩ : Dhcp6.IdentityAssociation)] = ias ∧
                (none : Option PoolError) = err := by
              simpa [Prod.ext_iff] using h
            rw [← hias] at hia
            simp only [List.mem_singleton] at hia
            subst hia
            rw [← hp1]
            show mapLookup (mapInsert _ (calculateIAIDHash c i) _)
              (calculateIAIDHash c i) = _
            rw [mapLookup_insert_self]

theorem runOps_inv {ops : List PoolOp} {p : RandomAddressPool}
    (hops : ∀ op ∈ ops, op.isReserve) (hinv : Inv p) :
    Inv (runOps p ops) ∧ (runOps p ops).validLifetime = p.validLifetime := by
  induction ops generalizing p with
  | nil => exact ⟨hinv, rfl⟩
  | cons op rest ih =>
      cases op with
      | releaseOp c iids =>
          have hop := hops (.releaseOp c iids) (by simp)
          simp [PoolOp.isReserve] at hop
      | reserveOp now c iids draws =>
          have hinv1 : Inv ((p.ReserveAddresses now c iids draws).1) :=
            reserve_inv hinv
          have hstep := ih (fun op h => hops op (List.mem_cons_of_mem _ h)) hinv1
          refine ⟨hstep.1, ?_⟩
          show (runOps ((p.ReserveAddresses now c iids draws).1) rest).validLifetime = _
          rw [hstep.2, reserve_fields]

theorem runOps_survive {ops : List PoolOp} {p : RandomAddressPool} {h : Nat}
    {ia : Dhcp6.IdentityAssociation} {bound : Nat}
    (hops : ∀ op ∈ ops, op.isReserveBy bound) (hinv : Inv p)
    (hl : mapLookup p.identityAssociations h = some ia)
    (hexp : bound < ia.CreatedAt + p.validLifetime) :
    Inv (runOps p ops) ∧
    mapLookup (runOps p ops).identityAssociations h = some ia ∧
    (runOps p ops).validLifetime = p.validLifetime := by
  induction ops generalizing p with
  | nil => exact ⟨hinv, hl, rfl⟩
  | cons op rest ih =>
      cases op with
      | releaseOp c iids =>
          have hop := hops (.releaseOp c iids) (by simp)
          simp [PoolOp.isReserveBy] at hop
      | reserveOp now c iids draws =>
          have hop : now ≤ bound := hops (.reserveOp now c iids draws) (by simp)
          have h2 : mapLookup ((p.ReserveAddresses now c iids
              draws).1).identityAssociations h = some ia :=
            reserve_lookup_survives hinv hl (by omega)
          have h3 := reserve_fields p now c iids draws
          have hinv1 : Inv ((p.ReserveAddresses now c iids draws).1) :=
            reserve_inv hinv
          have hstep := ih (fun op hmem => hops op (List.mem_cons_of_mem _ hmem))
            hinv1 h2 (by rw [h3]; exact hexp)
          refine ⟨hstep.1, hstep.2.1, ?_⟩
          show (runOps ((p.ReserveAddresses now c iids draws).1) rest).validLifetime = _
          rw [hstep.2.2, h3]

/-- C3 (amended): for reserve-only operation sequences (no ReleaseAddresses
anywhere in the history), a reservation created at time t for a
(clientID, interfaceID) pair is still returned, unchanged and with the same
address, by a reserve for the same pair at any time t' < t + validLifetime,
provided every intervening reserve happens at or before t'. With releases
interleaved this fails (claim_C3_counterexample): a release leaves a stale
FIFO expiration entry that later evicts the newer reservation early. -/
theorem claim_C3_reserve_only_persistence
    (start : List Nat) (size L : Nat)
    (pre : List PoolOp) (hpre : ∀ op ∈ pre, op.isReserve)
    (t : Nat) (c i : List Nat) (draws : List Nat)
    (p1 : RandomAddressPool) (ias : List Dhcp6.IdentityAssociation)
    (err : Option PoolError) (ia : Dhcp6.IdentityAssociation)
    (mid : List PoolOp) (t' : Nat) (draws' : List Nat)
    (hres : (runOps (NewRandomAddressPool start size L) pre).ReserveAddresses
      t c [i] draws = (p1, ias, err))
    (hia : ia ∈ ias) (hcreated : ia.CreatedAt = t)
    (hmid : ∀ op ∈ mid, op.isReserveBy t')
    (ht' : t' < t + L) :
    ((runOps p1 mid).ReserveAddresses t' c [i] draws').2 = ([ia], none) := by
  have hinv0 := runOps_inv hpre (inv_new start size L)
  have hp1 : (((runOps (NewRandomAddressPool start size L) pre).ReserveAddresses
      t c [i] draws).1) = p1 := by rw [hres]
  have hinv1 : Inv p1 := hp1 ▸ reserve_inv hinv0.1
  have hL1 : p1.validLifetime = L := by
    rw [← hp1, reserve_fields, hinv0.2]
    rfl
  have hl1 := reserve_single_result hres hia
  have hsurv := runOps_survive hmid hinv1 hl1 (by rw [hcreated, hL1]; exact ht')
  exact reserve_returns_existing hsurv.1 hsurv.2.1
    (by rw [hsurv.2.2, hcreated, hL1]; exact ht')

end Pool

/-- Pool after one reserve at time 0 on a fresh single-address pool. -/
def c3wP1 : Pool.RandomAddressPool :=
  ((Pool.NewRandomAddressPool [1] 1 100).ReserveAddresses 0 [99]
    [[1, 2, 3, 4]] [0]).1

/-- The association that reserve creates. -/
def c3wIa : Dhcp6.IdentityAssociation := ⟨natToBytes 1, [99], [1, 2, 3, 4], 0⟩

theorem claim_C3_reserve_only_persistence_witness :
    ((Pool.runOps c3wP1 []).ReserveAddresses 50 [99] [[1, 2, 3, 4]] []).2 =
      ([c3wIa], none) :=
  Pool.claim_C3_reserve_only_persistence [1] 1 100 [] (by simp) 0 [99]
    [1, 2, 3, 4] [0] c3wP1
    (((Pool.NewRandomAddressPool [1] 1 100).ReserveAddresses 0 [99]
      [[1, 2, 3, 4]] [0]).2.1)
    (((Pool.NewRandomAddressPool [1] 1 100).ReserveAddresses 0 [99]
      [[1, 2, 3, 4]] [0]).2.2)
    c3wIa [] 50 [] rfl (by decide) (by decide) (by simp) (by decide)

namespace Pool

/-- When the FIFO head (if any) has not yet expired, the expiration sweep is
a no-op on the pool. -/
theorem expire_noop {p : RandomAddressPool} {now : Nat}
    (h : ∀ e, p.identityAssociationExpirations.head? = some e →
      now < e.expiresAt) :
    p.expireIdentityAssociations now = p := by
  rw [RandomAddressPool.expireIdentityAssociations]
  rw [expireLoop_noop h]

/-- C7: reserve is idempotent. If a single-interface ReserveAddresses call
returns an identity association, repeating the call with the same clientID
and interfaceID at the same wall clock (no intervening release or expiry)
returns that identical association, with the same address and no error, and
leaves the pool state unchanged — given a positive validLifetime (with
validLifetime = 0 the fresh association expires within the same instant). -/
theorem claim_C7_reserve_idempotent
    (p : RandomAddressPool) (now : Nat) (c i : List Nat)
    (draws draws2 : List Nat) (p1 : RandomAddressPool)
    (ias : List Dhcp6.IdentityAssociation) (err : Option PoolError)
    (ia : Dhcp6.IdentityAssociation)
    (hL : 0 < p.validLifetime)
    (h1 : p.ReserveAddresses now c [i] draws = (p1, ias, err))
    (hia : ia ∈ ias) :
    p1.ReserveAddresses now c [i] draws2 = (p1, [ia], none) := by
  have hq : ∀ e, (p.expireIdentityAssociations
      now).identityAssociationExpirations.head? = some e → now < e.expiresAt := by
    intro e he
    exact expireLoop_head he
  rw [RandomAddressPool.ReserveAddresses] at h1
  cases hl : mapLookup (p.expireIdentityAssociations now).identityAssociations
      (calculateIAIDHash c i) with
  | some a =>
      simp only [reserveLoop, hl, List.nil_append] at h1
      obtain ⟨rfl, rfl, rfl⟩ : p.expireIdentityAssociations now = p1 ∧ [a] = ias ∧
          (none : Option PoolError) = err := by
        simpa [Prod.ext_iff] using h1
      simp only [List.mem_singleton] at hia
      subst hia
      rw [RandomAddressPool.ReserveAddresses, expire_noop hq]
      simp only [reserveLoop, hl, List.nil_append]
  | none =>
      simp only [reserveLoop, hl] at h1
      by_cases hfull : (p.expireIdentityAssociations now).usedIps.length =
          (p.expireIdentityAssociations now).poolSize
      · rw [if_pos hfull] at h1
        obtain ⟨-, rfl, -⟩ : p.expireIdentityAssociations now = p1 ∧
            ([] : List Dhcp6.IdentityAssociation) = ias ∧
            (some PoolError.noAddrsAvailable : Option PoolError) = err := by
          simpa [Prod.ext_iff] using h1
        simp at hia
      · rw [if_neg hfull] at h1
        cases hd : drawLoop (p.expireIdentityAssociations now).poolStartAddress
            (p.expireIdentityAssociations now).poolSize
            (p.expireIdentityAssociations now).usedIps draws with
        | none =>
            rw [hd] at h1
            obtain ⟨-, rfl, -⟩ : p.expireIdentityAssociations now = p1 ∧
                ([] : List Dhcp6.IdentityAssociation) = ias ∧
                (some PoolError.stuck : Option PoolError) = err := by
              simpa [Prod.ext_iff] using h1
            simp at hia
        | some pr =>
            obtain ⟨newIP, draws'⟩ := pr
            rw [hd] at h1
            simp only [reserveLoop, List.nil_append] at h1
            obtain ⟨hp1, hias, -⟩ : _ = p1 ∧
                [(⟨natToBytes newIP, c, i, now⟩ : Dhcp6.IdentityAssociation)] = ias ∧
                (none : Option PoolError) = err := by
              simpa [Prod.ext_iff] using h1
            rw [← hias] at hia
            simp only [List.mem_singleton] at hia
            subst hia
            have hfifo : p1.identityAssociationExpirations =
                (p.expireIdentityAssociations now).identityAssociationExpirations ++
                  [⟨now + (p.expireIdentityAssociations now).validLifetime,
                    ⟨natToBytes newIP, c, i, now⟩⟩] := by
              rw [← hp1]
            have hlook : mapLookup p1.identityAssociations (calculateIAIDHash c i) =
                some ⟨natToBytes newIP, c, i, now⟩ := by
              rw [← hp1]
              exact mapLookup_insert_self _ _ _
            have hhead : ∀ e, p1.identityAssociationExpirations.head? = some e →
                now < e.expiresAt := by
              intro e he
              rw [hfifo] at he
              cases hqf : (p.expireIdentityAssociations
                  now).identityAssociationExpirations with
              | nil =>
                  rw [hqf] at he
                  simp only [List.nil_append, List.head?_cons,
                    Option.some.injEq] at he
                  rw [← he]
                  show now < now + p.validLifetime
                  omega
              | cons e0 t =>
                  rw [hqf] at he
                  simp only [List.cons_append, List.head?_cons,
                    Option.some.injEq] at he
                  rw [← he]
                  exact hq e0 (by rw [hqf]; rfl)
            rw [RandomAddressPool.ReserveAddresses, expire_noop hhead]
            simp only [reserveLoop, hlook, List.nil_append]

end Pool

/-- Reserving twice in a row at the same clock on the one-address pool. -/
def c7Second : Pool.RandomAddressPool × List Dhcp6.IdentityAssociation ×
    Option Pool.PoolError :=
  c3wP1.ReserveAddresses 0 [99] [[1, 2, 3, 4]] []

theorem claim_C7_reserve_idempotent_witness :
    c7Second = (c3wP1, [c3wIa], none) :=
  Pool.claim_C7_reserve_idempotent (Pool.NewRandomAddressPool [1] 1 100) 0 [99]
    [1, 2, 3, 4] [0] [] c3wP1
    (((Pool.NewRandomAddressPool [1] 1 100).ReserveAddresses 0 [99]
      [[1, 2, 3, 4]] [0]).2.1)
    (((Pool.NewRandomAddressPool [1] 1 100).ReserveAddresses 0 [99]
      [[1, 2, 3, 4]] [0]).2.2)
    c3wIa (by decide) rfl (by decide)

namespace Booters

/-- Errors surfaced by the API booter. getAPIResponse itself constructs the
non-200 error (whose Go text names the request URL and the status text);
the oracle constructor stands for errors produced inside stdlib-backed
steps (JSON decoding, URL parsing, signing, template expansion). -/
inductive APIErr where
  | transport (msg : List Nat)
  | statusText (statusCode : Nat)
  | unknownCmdlineType
  | oracleErr (msg : List Nat)
deriving DecidableEq, Repr

/-- The outcome of the HTTP GET in getAPIResponse: a transport error from
client.Get, or a response with its status code and body bytes. -/
inductive HTTPResult where
  | failed (msg : List Nat)
  | response (statusCode : Nat) (body : List Nat)
deriving DecidableEq, Repr

/-- getAPIResponse: propagate transport errors; close and reject any
non-200 response with an error naming the status; hand back the 200 body.
Go returns (body, nil) or (nil, err), which Except captures exactly. -/
def getAPIResponse (r : HTTPResult) : Except APIErr (List Nat) :=
  match r with
  | .failed msg => .error (.transport msg)
  | .response statusCode body =>
      if statusCode ≠ 200 then .error (.statusText statusCode)
      else .ok body

/-- The decoded JSON value of the cmdline field (a Go interface value):
absent/null, a string, a JSON object, or any other type. -/
inductive CmdlineVal where
  | nullv
  | str (s : List Nat)
  | obj (entries : List (List Nat × List Nat))
  | other
deriving DecidableEq, Repr

/-- The anonymous response struct BootSpec decodes the body into. -/
structure APIResponse where
  Kernel : List Nat
  Initrd : List (List Nat)
  Cmdline : CmdlineVal
  Message : List Nat
  IpxeScript : List Nat
deriving DecidableEq, Repr

/-- Spec (the fields BootSpec populates). -/
structure Spec where
  Kernel : List Nat
  Initrd : List (List Nat)
  Cmdline : List Nat
  Message : List Nat
  IpxeScript : List Nat
deriving DecidableEq, Repr

/-- Oracles for the stdlib-backed steps of BootSpec: json Decode,
makeURLAbsolute (net/url parsing), signURL (random nonce + secretbox),
constructCmdline and expandCmdline (text/template). Each may fail, exactly
as the Go calls may. -/
structure BootSpecEnv where
  jsonDecode : List Nat → Except APIErr APIResponse
  makeURLAbsolute : List Nat → Except APIErr (List Nat)
  signURLo : List Nat → Except APIErr (List Nat)
  constructCmdline : List (List Nat × List Nat) → Except APIErr (List Nat)
  expandCmdline : List Nat → Except APIErr (List Nat)

/-- The for-loops of BootSpec that stop at the first failing element. -/
def mapExcept (f : List Nat → Except APIErr (List Nat)) :
    List (List Nat) → Except APIErr (List (List Nat))
  | [] => .ok []
  | x :: xs =>
      match f x with
      | .error e => .error e
      | .ok y =>
          match mapExcept f xs with
          | .error e => .error e
          | .ok ys => .ok (y :: ys)

/-- The switch on r.Cmdline: nil is skipped (empty cmdline), a string is
taken as-is, a JSON object goes through constructCmdline, anything else is
the unknown-type error. -/
def cmdlineOf (env : BootSpecEnv) : CmdlineVal → Except APIErr (List Nat)
  | .nullv => .ok []
  | .str s => .ok s
  | .obj m => env.constructCmdline m
  | .other => .error .unknownCmdlineType

/-- BootSpec, with the HTTP exchange and the stdlib-backed steps supplied
as parameters: fetch the API response, decode it, honor an ipxe-script
early return, absolutize and sign kernel and initrd URLs, resolve the
cmdline, expand its URL template macros. Every failing step propagates as
(nil, err), mirroring the Go returns. -/
def BootSpec (env : BootSpecEnv) (r : HTTPResult) : Option Spec × Option APIErr :=
  match getAPIResponse r with
  | .error e => (none, some e)
  | .ok body =>
      match env.jsonDecode body with
      | .error e => (none, some e)
      | .ok resp =>
          if resp.IpxeScript ≠ [] then
            (some ⟨[], [], [], [], resp.IpxeScript⟩, none)
          else
            match env.makeURLAbsolute resp.Kernel with
            | .error e => (none, some e)
            | .ok kernelAbs =>
                match mapExcept env.makeURLAbsolute resp.Initrd with
                | .error e => (none, some e)
                | .ok initrdAbs =>
                    match env.signURLo kernelAbs with
                    | .error e => (none, some e)
                    | .ok kernelID =>
                        match mapExcept env.signURLo initrdAbs with
                        | .error e => (none, some e)
                        | .ok initrdIDs =>
                            match cmdlineOf env resp.Cmdline with
                            | .error e => (none, some e)
                            | .ok cmd0 =>
                                match env.expandCmdline cmd0 with
                                | .error e => (none, some e)
                                | .ok cmd =>
                                    (some ⟨kernelID, initrdIDs, cmd,
                                      resp.Message, []⟩, none)

end Booters

/-- A concrete oracle environment whose stdlib steps all succeed. -/
def c2Env : Booters.BootSpecEnv :=
  ⟨fun _ => .ok ⟨[107], [], .nullv, [], []⟩, fun u => .ok u, fun u => .ok u,
   fun _ => .ok [], fun c => .ok c⟩

/-- C2 counterexample: on a 404 the API booter's BootSpec does NOT return
the claimed (nil spec, nil error) "ignore this client" pair — it returns a
nil spec together with a non-nil error naming the status. -/
theorem claim_C2_counterexample :
    Booters.BootSpec c2Env (.response 404 []) ≠ (none, none) ∧
    Booters.BootSpec c2Env (.response 404 []) =
      (none, some (.statusText 404)) := by
  constructor
  · intro h
    simp [Booters.BootSpec, Booters.getAPIResponse, c2Env] at h
  · rfl

/-- C2 (amended): for every oracle environment and body, an upstream
response with any non-200 status makes BootSpec return a nil spec and a
non-nil error carrying that status (the claimed no-error "ignore" pair is
never produced on this path). -/
theorem claim_C2_non200_is_error (env : Booters.BootSpecEnv) (status : Nat)
    (body : List Nat) (h : status ≠ 200) :
    Booters.BootSpec env (.response status body) =
      (none, some (.statusText status)) := by
  rw [Booters.BootSpec, Booters.getAPIResponse]
  rw [if_pos h]

theorem claim_C2_non200_is_error_witness :
    Booters.BootSpec c2Env (.response 503 [72]) =
      (none, some (.statusText 503)) :=
  claim_C2_non200_is_error c2Env 503 [72] (by decide)

namespace Server

/-- The part of Server state relevant to Serve/Shutdown coordination: the
errs channel. Go's zero value is a nil channel (errs = none); Serve
replaces it with a fresh buffered channel of capacity 6, modelled as the
queue of values sent and not yet received. Channel elements are Go error
values: none is the nil error Shutdown sends, some msg a goroutine error. -/
structure ServerState where
  errs : Option (List (Option (List Nat)))
deriving DecidableEq, Repr

/-- The channel buffer capacity Serve allocates (5 goroutine slots + 1 for
Shutdown). -/
def chanCap : Nat := 6

/-- Shutdown: `select { case s.errs <- nil: default: }`. A send on a nil
channel is never ready, and a send on a full buffer is not ready either, so
in both cases the default branch makes Shutdown a silent no-op; otherwise
the nil error is enqueued. -/
def Shutdown (s : ServerState) : ServerState :=
  match s.errs with
  | none => s
  | some q => if q.length < chanCap then ⟨some (q ++ [none])⟩ else s

/-- How a Serve call ends. bindError: one of the four socket binds failed
and Serve returned that error before touching errs. returned e: Serve
pulled e from the channel and returned it after closing the sockets.
blocked: nothing was ever sent on the fresh channel, so `err = <-s.errs`
blocks and Serve never returns. -/
inductive ServeOutcome where
  | bindError (msg : List Nat)
  | returned (err : Option (List Nat))
  | blocked
deriving DecidableEq, Repr

/-- Serve: after defaulting the ports, bind the four sockets (bind is the
outcome of that, some msg being the first failure); on success create the
fresh errs channel — discarding the nil (or any previous) channel — start
the four goroutines, and block on the first received value. arrivals lists
the values sent on the new channel after Serve starts, in order: goroutine
errors and/or the nil that a later Shutdown enqueues. -/
def Serve (s : ServerState) (bind : Option (List Nat))
    (arrivals : List (Option (List Nat))) : ServerState × ServeOutcome :=
  match bind with
  | some msg => (s, .bindError msg)
  | none =>
      match arrivals with
      | [] => (⟨some []⟩, .blocked)
      | e :: rest => (⟨some rest⟩, .returned e)

end Server

/-- C8 counterexample: Shutdown on a fresh server (nil errs channel) is a
no-op, and the subsequent Serve — far from returning immediately with nil —
binds its sockets and blocks forever when no goroutine fails and no further
Shutdown arrives. -/
theorem claim_C8_counterexample :
    Server.Shutdown ⟨none⟩ = (⟨none⟩ : Server.ServerState) ∧
    (Server.Serve (Server.Shutdown ⟨none⟩) none []).2 =
      Server.ServeOutcome.blocked ∧
    (Server.Serve (Server.Shutdown ⟨none⟩) none []).2 ≠
      Server.ServeOutcome.returned none := by
  refine ⟨rfl, rfl, ?_⟩
  intro h
  simp [Server.Serve, Server.Shutdown] at h

/-- C8 (amended): calling Shutdown before Serve is a lost signal, not a
pending one. On a server whose errs channel does not exist yet, Shutdown
changes nothing, so the following Serve behaves exactly as if Shutdown had
never been called: with no later arrival it blocks (it does not return
nil immediately); only a Shutdown issued after Serve has created the
channel (the none arrival) makes Serve return the nil error. -/
theorem claim_C8_shutdown_before_serve (s : Server.ServerState)
    (h : s.errs = none) (arrivals : List (Option (List Nat))) :
    Server.Shutdown s = s ∧
    Server.Serve (Server.Shutdown s) none arrivals =
      Server.Serve s none arrivals ∧
    (Server.Serve (Server.Shutdown s) none []).2 = Server.ServeOutcome.blocked ∧
    (Server.Serve (Server.Shutdown s) none [none]).2 =
      Server.ServeOutcome.returned none := by
  have hs : Server.Shutdown s = s := by
    rw [Server.Shutdown, h]
  refine ⟨hs, by rw [hs], by rw [hs]; rfl, by rw [hs]; rfl⟩

theorem claim_C8_shutdown_before_serve_witness :
    Server.Shutdown ⟨none⟩ = (⟨none⟩ : Server.ServerState) ∧
    Server.Serve (Server.Shutdown ⟨none⟩) none [some [88]] =
      Server.Serve ⟨none⟩ none [some [88]] ∧
    (Server.Serve (Server.Shutdown ⟨none⟩) none []).2 =
      Server.ServeOutcome.blocked ∧
    (Server.Serve (Server.Shutdown ⟨none⟩) none [none]).2 =
      Server.ServeOutcome.returned none :=
  claim_C8_shutdown_before_serve ⟨none⟩ rfl [some [88]]

namespace ServeV6

/-- An inbound datagram as Conn.RecvDHCP's ReadFrom sees it: the receive
buffer contents and read length, plus the control-message facts the
receive loop filters on (interface index match; destination is the
listening multicast group). -/
structure Datagram where
  buf : List Nat
  n : Nat
  ifMatch : Bool
  dstOurMulticast : Bool
deriving DecidableEq, Repr

/-- How a run of the DHCPv6 serve loop over a finite inbound stream ends:
fatal — RecvDHCP returned an Unmarshal error and serveDHCP returned an
error (terminating the loop; ServerV6.Serve then tears the server down);
crashed — a Go runtime panic escaped during parsing; blocked — the stream
ran out and the loop is waiting for the next datagram. -/
inductive LoopEnd where
  | fatal (e : Dhcp6.ParseError)
  | crashed
  | blocked
deriving DecidableEq, Repr

/-- ServerV6.serveDHCP composed with Conn.RecvDHCP, over a finite datagram
stream. RecvDHCP silently skips (continue) datagrams failing the interface
or multicast-group checks, but RETURNS any Unmarshal error, upon which
serveDHCP returns an error and the loop terminates. Every body path after a
successful parse — ShouldDiscard, BuildResponse and send, with all their
logging — continues the loop; handle abstracts that body, giving the
replies it sends for a packet. Results: the loop end, the replies sent,
and the datagrams left unprocessed at termination. -/
def serveDHCP (handle : Dhcp6.Packet → List (List Nat)) :
    List Datagram → LoopEnd × List (List Nat) × List Datagram
  | [] => (.blocked, [], [])
  | d :: rest =>
      if d.ifMatch = false ∨ d.dstOurMulticast = false then
        serveDHCP handle rest
      else
        match Dhcp6.Unmarshal d.buf d.n with
        | .error .panicked => (.crashed, [], rest)
        | .error e => (.fatal e, [], rest)
        | .ok pkt =>
            match serveDHCP handle rest with
            | (out, sent, left) => (out, handle pkt ++ sent, left)

end ServeV6

/-- C1: the spec's drop-and-continue behaviour for wire-parse errors does
NOT hold. A single datagram that reaches the parser and fails Unmarshal
(here with any non-panic parse error) makes Conn.RecvDHCP return the error
and ServerV6.serveDHCP return — the serve loop terminates with a fatal
error, no reply is sent, and every subsequent datagram is left
unprocessed, whatever the handler would have done with it. -/
theorem claim_C1_malformed_terminates_loop
    (handle : Dhcp6.Packet → List (List Nat)) (d : ServeV6.Datagram)
    (rest : List ServeV6.Datagram)
    (hif : d.ifMatch = true) (hdst : d.dstOurMulticast = true)
    (e : Dhcp6.ParseError) (he : Dhcp6.Unmarshal d.buf d.n = .error e)
    (hnp : e ≠ .panicked) :
    ServeV6.serveDHCP handle (d :: rest) = (.fatal e, [], rest) := by
  rw [ServeV6.serveDHCP]
  rw [if_neg (by simp [hif, hdst])]
  rw [he]
  cases e with
  | panicked => exact absurd rfl hnp
  | oddOroLength l => rfl
  | optionTooLong i l a => rfl

/-- A malformed Solicit: ORO option (id 6) with the odd length 3. -/
def c1Bad : ServeV6.Datagram :=
  ⟨[1, 49, 50, 51, 0, 6, 0, 3, 0, 1, 1], 11, true, true⟩

/-- A well-formed datagram following the malformed one. -/
def c1Next : ServeV6.Datagram :=
  ⟨[1, 49, 50, 51, 0, 1, 0, 2, 65, 66], 10, true, true⟩

theorem claim_C1_malformed_terminates_loop_witness :
    ServeV6.serveDHCP (fun _ => [[2]]) [c1Bad, c1Next] =
      (.fatal (.oddOroLength 3), [], [c1Next]) :=
  claim_C1_malformed_terminates_loop (fun _ => [[2]]) c1Bad [c1Next] rfl rfl
    (.oddOroLength 3)
    (by simp [c1Bad, Dhcp6.Unmarshal, Dhcp6.UnmarshalOptions,
      Dhcp6.unmarshalOptionsAux, Dhcp6.UnmarshalOption, uint16BE, List.getD])
    (by decide)

namespace Pixiecore

/-- Observable response actions of handleFile: http.Error with a status
(400 "missing filename", 500 "couldn't get file"), setting the
Content-Length header, and io.Copy of the file body to the client. -/
inductive FileAction where
  | httpError (status : Nat)
  | setContentLength (sz : Int)
  | copyBody (content : List Nat)
deriving DecidableEq, Repr

/-- handleFile on a GET /_/file request: reads the name query parameter and,
when it is empty, writes the 400 error — but does not return there: it
falls through to Booter.ReadBootFile(ID(name)) with the empty name. A read
error writes the 500 and returns; on success the size is advertised when
known (negative sizes are only logged) and the body is streamed. The
post-copy machineEvent bookkeeping emits no response actions and is
omitted. readBootFile is the Booter oracle, returning the file content and
its size or an error message. -/
def handleFile (readBootFile : List Nat → Except (List Nat) (List Nat × Int))
    (name : List Nat) : List FileAction :=
  (if name = [] then [FileAction.httpError 400] else []) ++
  match readBootFile name with
  | .error _ => [FileAction.httpError 500]
  | .ok (content, sz) =>
      (if 0 ≤ sz then [FileAction.setContentLength sz] else []) ++
        [FileAction.copyBody content]

end Pixiecore

/-- C10: a /_/file request with no name parameter gets the 400
"missing filename" error, yet handleFile still calls ReadBootFile with the
empty ID, and when that call succeeds it goes on to advertise the size and
stream the file body to the client after the error. -/
theorem claim_C10_missing_name_still_reads
    (readBootFile : List Nat → Except (List Nat) (List Nat × Int))
    (content : List Nat) (sz : Int)
    (h : readBootFile [] = .ok (content, sz)) (hsz : 0 ≤ sz) :
    Pixiecore.handleFile readBootFile [] =
      [.httpError 400, .setContentLength sz, .copyBody content] := by
  rw [Pixiecore.handleFile, h, if_pos rfl]
  dsimp only
  rw [if_pos hsz]
  rfl

theorem claim_C10_missing_name_still_reads_witness :
    Pixiecore.handleFile (fun _ => .ok ([10, 20, 30], 3)) [] =
      [.httpError 400, .setContentLength 3, .copyBody [10, 20, 30]] :=
  claim_C10_missing_name_still_reads (fun _ => .ok ([10, 20, 30], 3))
    [10, 20, 30] 3 rfl (by decide)
